import Mathlib

/-!
Verification of the algorithmic core of the lob-sdk repository: scalar
utilities, 2D/3D vector algebra, a deduplicating `Vector2Set`, a binary-heap
`PriorityQueue`, and the Douglas-Peucker path simplifier.

Modelling conventions.  JavaScript numbers are IEEE-754 doubles; we model
their values as exact rationals (`ℚ`), so every arithmetic operation of the
source is mirrored exactly, without rounding.  The two places where the
source produces irrational values are treated as follows:

* `Math.sqrt` inside the Douglas-Peucker `perpendicularDistance` only ever
  flows into comparisons, and all distances compared inside one
  `findFurthestPoint` call share the same denominator `sqrt(den2)`.  We
  therefore represent a distance symbolically by its numerator together
  with the three special shapes JavaScript produces (`NaN` from `0/0`,
  `Infinity` from `num/0` with `num > 0`, and a finite value `num/sqrt den2`
  with `den2 > 0`), and implement the comparisons of the source exactly on
  that representation (`num / sqrt den2 > eps  ↔  eps < 0 ∨ eps^2 * den2 < num^2`
  for `num ≥ 0`, `den2 > 0`).

* `Vector2.normalize` / `Vector3.normalize` return components divided by a
  square root, so their output is itself irrational; those two methods are
  embedded over `ℝ` with `Real.sqrt` (definitions `Vector2R`, `Vector3R`).

* `Math.PI` denotes a concrete double; `piQ` below is its exact rational
  value `884279719003555 / 2^48`.
-/

/-- Exact rational value of the IEEE-754 double `Math.PI`. -/
def piQ : ℚ := 884279719003555 / 281474976710656

/-- Truncation toward zero, as used by the JavaScript `%` operator. -/
def jsTrunc (q : ℚ) : ℤ := if 0 ≤ q then ⌊q⌋ else ⌈q⌉

/-- The JavaScript remainder operator `a % b` (sign follows the dividend). -/
def jsMod (a b : ℚ) : ℚ := a - b * jsTrunc (a / b)

/-- The JavaScript `Math.round` (rounds half toward positive infinity). -/
def jsRound (q : ℚ) : ℚ := (⌊q + 1/2⌋ : ℤ)

/-- Modelled from the spec: the constant `DEG_TO_RAD` imported from the
missing `@lob-sdk/constants` module; the spec describes degree/radian
conversion, so it is `Math.PI / 180`. -/
def DEG_TO_RAD : ℚ := piQ / 180

/-- Modelled from the spec: the constant `TWO_PI` imported from the missing
`@lob-sdk/constants` module, i.e. `2 * Math.PI`. -/
def TWO_PI : ℚ := 2 * piQ

/-- Embeds `radiansToDegreesNormalized` from `src/src/utils/utils.ts`
(lines 91-98): convert to degrees, wrap with `%`/`+ 360`, then `Math.round`. -/
def radiansToDegreesNormalized (radians : ℚ) : ℚ :=
  let degrees := radians * (180 / piQ)
  let degrees := jsMod degrees 360
  let degrees := if degrees < 0 then degrees + 360 else degrees
  jsRound degrees

/-- Embeds `degreesToRadians` from `src/src/utils/utils.ts` (lines 105-107). -/
def degreesToRadians (degrees : ℚ) : ℚ := degrees * DEG_TO_RAD

/-- Embeds `degreesToRadiansNormalized` from `src/src/utils/utils.ts`
(lines 114-121). -/
def degreesToRadiansNormalized (degrees : ℚ) : ℚ :=
  let radians := degrees * DEG_TO_RAD
  let radians := jsMod radians TWO_PI
  if radians < 0 then radians + TWO_PI else radians

/-- Embeds `median` from `src/src/utils/utils.ts` (lines 23-34).  The source
sorts its argument **in place** with `values.sort((a, b) => a - b)` and then
returns the median; we model the mutation by returning the final state of
the array alongside the result.  `Array.prototype.sort` with that comparator
produces the ascending reordering of the values; as a list of values this is
exactly `List.insertionSort (· ≤ ·)` (any two ascending reorderings of the
same multiset of rationals are equal as lists). -/
def median (values : List ℚ) : ℚ × List ℚ :=
  if values.length = 0 then (0, values)
  else
    let values := List.insertionSort (· ≤ ·) values
    let mid := values.length / 2
    if values.length % 2 ≠ 0 then (values.getD mid 0, values)
    else ((values.getD (mid - 1) 0 + values.getD mid 0) / 2, values)

/-- The coordinates of a 2D vector, with JavaScript numbers modelled as
exact rationals (class `Vector2` of `src/unnamed/part_000`). -/
structure Vector2 where
  x : ℚ
  y : ℚ
deriving DecidableEq, Repr, Inhabited

/-- Embeds `Vector2.add` (`src/unnamed/part_000`, lines 37-39). -/
def Vector2.add (v w : Vector2) : Vector2 := ⟨v.x + w.x, v.y + w.y⟩

/-- Embeds `Vector2.divide` (`src/unnamed/part_000`, lines 124-129); the
`throw` is modelled by `Except.error` carrying the thrown message. -/
def Vector2.divide (v : Vector2) (scalar : ℚ) : Except String Vector2 :=
  if scalar = 0 then .error "Cannot divide by zero"
  else .ok ⟨v.x / scalar, v.y / scalar⟩

/-- Embeds the static `Vector2.center` (`src/unnamed/part_000`, lines
298-307): `reduce` with initial accumulator `new Vector2(0, 0)` is `foldl`
from `⟨0, 0⟩`. -/
def Vector2.center (vectors : List Vector2) : Except String Vector2 :=
  if vectors.length = 0 then .error "No vectors provided."
  else
    let sum := vectors.foldl Vector2.add ⟨0, 0⟩
    let count : ℚ := vectors.length
    .ok ⟨sum.x / count, sum.y / count⟩

/-- Model of the `StringVector2` template-literal type: the source key is
the string `x + "," + y`.  JavaScript number-to-string conversion is
injective on numbers, and the comma separates the two renderings, so two
vectors produce the same key string exactly when they have the same
coordinate pair; we therefore model the key by the pair itself. -/
abbrev StringVector2 := ℚ × ℚ

/-- Embeds `Vector2.toString` (`src/unnamed/part_000`, lines 185-187) under
the key model above. -/
def Vector2.toKeyString (v : Vector2) : StringVector2 := (v.x, v.y)

/-- JavaScript `Map.prototype.set` on an insertion-ordered association
list: an existing key has its value replaced in place, a new key is
appended. -/
def mapSet (m : List (StringVector2 × Vector2)) (k : StringVector2)
    (v : Vector2) : List (StringVector2 × Vector2) :=
  if m.any (fun e => e.1 = k) then
    m.map (fun e => if e.1 = k then (k, v) else e)
  else m ++ [(k, v)]

/-- The `Vector2Set` class of `src/unnamed/part_000` (lines 343-409),
backed by a `Map<StringVector2, Vector2>`. -/
structure Vector2Set where
  map : List (StringVector2 × Vector2)
deriving Repr

/-- The `Vector2Set` constructor: an empty map. -/
def Vector2Set.mk0 : Vector2Set := ⟨[]⟩

/-- Embeds `Vector2Set.add` (lines 357-359): `this.map.set(vector.toString(), vector)`. -/
def Vector2Set.add (s : Vector2Set) (vector : Vector2) : Vector2Set :=
  ⟨mapSet s.map vector.toKeyString vector⟩

/-- Embeds `Vector2Set.toArray` (values in insertion order). -/
def Vector2Set.toArray (s : Vector2Set) : List Vector2 := s.map.map Prod.snd

/-- A sequence of `add` calls, in order. -/
def Vector2Set.addAll (s : Vector2Set) (vs : List Vector2) : Vector2Set :=
  vs.foldl Vector2Set.add s

/-- The keys currently stored in the backing map. -/
def Vector2Set.keys (s : Vector2Set) : List StringVector2 := s.map.map Prod.fst

/-- The 2D vector model over `ℝ`, used for the methods whose results
involve `Math.sqrt` (`length`, `normalize`). -/
structure Vector2R where
  x : ℝ
  y : ℝ

/-- Embeds `Vector2.length` (`src/unnamed/part_000`, lines 81-83). -/
noncomputable def Vector2R.length (v : Vector2R) : ℝ :=
  Real.sqrt (v.x * v.x + v.y * v.y)

/-- Embeds `Vector2.normalize` (`src/unnamed/part_000`, lines 90-99): on
zero length the source constructs `new Vector2(0, 0)`; otherwise it divides
both components by the length. -/
noncomputable def Vector2R.normalize (v : Vector2R) : Vector2R :=
  let len := v.length
  if len = 0 then ⟨0, 0⟩
  else ⟨v.x / len, v.y / len⟩

/-- The 3D vector model over `ℝ` (class `Vector3` of
`src/src/vector/vector3.ts`). -/
structure Vector3R where
  x : ℝ
  y : ℝ
  z : ℝ

/-- Embeds `Vector3.scale` (`src/src/vector/vector3.ts`, lines 88-90). -/
noncomputable def Vector3R.scale (v : Vector3R) (scalar : ℝ) : Vector3R :=
  ⟨v.x * scalar, v.y * scalar, v.z * scalar⟩

/-- Embeds `Vector3.length` (`src/src/vector/vector3.ts`, lines 142-144). -/
noncomputable def Vector3R.length (v : Vector3R) : ℝ :=
  Real.sqrt (v.x ^ 2 + v.y ^ 2 + v.z ^ 2)

/-- Embeds `Vector3.normalize` (`src/src/vector/vector3.ts`, lines 119-122):
`length > 0 ? this.scale(1 / length) : this` — on zero length the source
returns `this`, the original instance, which the embedding renders as
returning the argument itself. -/
noncomputable def Vector3R.normalize (v : Vector3R) : Vector3R :=
  let length := Real.sqrt (v.x ^ 2 + v.y ^ 2 + v.z ^ 2)
  if 0 < length then v.scale (1 / length) else v

/-- The default comparator of the `PriorityQueue` constructor
(`src/src/priority-queue/priority-queue.ts`, line 14): `(a, b) => a - b`. -/
def defaultCompare : ℚ → ℚ → ℚ := fun a b => a - b

/-- State of the `PriorityQueue<T>` class
(`src/src/priority-queue/priority-queue.ts`): the backing array of
`{ item, priority }` records and the injected comparator. -/
structure PriorityQueue (T : Type) where
  items : List (T × ℚ)
  compare : ℚ → ℚ → ℚ

/-- A queue as built by `new PriorityQueue()` with the default comparator. -/
def PriorityQueue.mk0 (T : Type) : PriorityQueue T := ⟨[], defaultCompare⟩

/-- The priority stored at index `i` (`items[i].priority`); out-of-range
reads never occur in the source's call sites, the default `0` is arbitrary. -/
def prioD {T : Type} (items : List (T × ℚ)) (i : ℕ) : ℚ :=
  (items[i]?.map Prod.snd).getD 0

/-- The three-assignment swap of `items[i]` and `items[j]` used by
`heapifyUp` / `heapifyDown`; both indices are always in range at the call
sites, otherwise the list is returned unchanged. -/
def listSwap {α : Type} (l : List α) (i j : ℕ) : List α :=
  match l[i]?, l[j]? with
  | some a, some b => (l.set i b).set j a
  | _, _ => l

/-- Embeds the loop body of `heapifyUp`
(`src/src/priority-queue/priority-queue.ts`, lines 84-101): sift the
element at `current` upward while it compares strictly before its parent
`(current - 1) >> 1`.  The fuel argument bounds the number of loop
iterations; `current` fuel always suffices because the index strictly
decreases at every step. -/
def heapifyUpF {T : Type} (compare : ℚ → ℚ → ℚ) :
    ℕ → List (T × ℚ) → ℕ → List (T × ℚ)
  | 0, items, _ => items
  | fuel + 1, items, current =>
    if current = 0 then items
    else
      let parent := (current - 1) / 2
      if 0 ≤ compare (prioD items current) (prioD items parent) then items
      else heapifyUpF compare fuel (listSwap items current parent) parent

/-- Embeds `heapifyUp` with sufficient fuel. -/
def heapifyUp {T : Type} (compare : ℚ → ℚ → ℚ) (items : List (T × ℚ))
    (current : ℕ) : List (T × ℚ) :=
  heapifyUpF compare current items current

/-- Embeds the loop body of `heapifyDown`
(`src/src/priority-queue/priority-queue.ts`, lines 107-136), with a fuel
argument standing for the (finite) number of loop iterations; `items.length`
fuel always suffices because `current` strictly increases and stays below
`items.length`. -/
def heapifyDownF {T : Type} (compare : ℚ → ℚ → ℚ) :
    ℕ → List (T × ℚ) → ℕ → List (T × ℚ)
  | 0, items, _ => items
  | fuel + 1, items, current =>
    let length := items.length
    let left := 2 * current + 1
    let right := left + 1
    let s1 :=
      if left < length ∧ compare (prioD items left) (prioD items current) < 0
      then left else current
    let smallest :=
      if right < length ∧ compare (prioD items right) (prioD items s1) < 0
      then right else s1
    if smallest = current then items
    else heapifyDownF compare fuel (listSwap items current smallest) smallest

/-- Embeds `heapifyDown` with sufficient fuel. -/
def heapifyDown {T : Type} (compare : ℚ → ℚ → ℚ) (items : List (T × ℚ))
    (index : ℕ) : List (T × ℚ) :=
  heapifyDownF compare items.length items index

/-- Embeds `enqueue` (`src/src/priority-queue/priority-queue.ts`, lines
23-26): push `{ item, priority }`, then sift the new leaf up. -/
def PriorityQueue.enqueue {T : Type} (pq : PriorityQueue T) (item : T)
    (priority : ℚ) : PriorityQueue T :=
  let items := pq.items ++ [(item, priority)]
  { pq with items := heapifyUp pq.compare items (items.length - 1) }

/-- Embeds `dequeue` (`src/src/priority-queue/priority-queue.ts`, lines
32-47): the removed root item together with the queue's new state.  An
empty queue yields `none` (the source's `undefined`); on more than one
element the popped last record replaces the root, which is then sifted
down. -/
def PriorityQueue.dequeue {T : Type} (pq : PriorityQueue T) :
    Option T × PriorityQueue T :=
  let length := pq.items.length
  if length = 0 then (none, pq)
  else
    let root := pq.items[0]?.map Prod.fst
    if length = 1 then (root, { pq with items := [] })
    else
      match pq.items.getLast? with
      | none => (root, pq)
      | some last =>
        let items := pq.items.dropLast.set 0 last
        (root, { pq with items := heapifyDown pq.compare items 0 })

/-- Dequeuing until the queue is empty, recording each removed
`(item, priority)` record (the record whose `item` field `dequeue`
returns); fuel `items.length` is exactly the number of removals. -/
def drainF {T : Type} : ℕ → PriorityQueue T → List (T × ℚ)
  | 0, _ => []
  | fuel + 1, pq =>
    match pq.items[0]? with
    | none => []
    | some rootPair => rootPair :: drainF fuel pq.dequeue.2

/-- Exhaustive dequeue (observation harness for the claims). -/
def PriorityQueue.drain {T : Type} (pq : PriorityQueue T) : List (T × ℚ) :=
  drainF pq.items.length pq

/-- A sequence of `enqueue` calls, in order. -/
def PriorityQueue.enqueueAll {T : Type} (pq : PriorityQueue T)
    (xs : List (T × ℚ)) : PriorityQueue T :=
  xs.foldl (fun q x => q.enqueue x.1 x.2) pq

/-- The binary-heap invariant of the spec (section 3) under the default
ascending comparator: for every index `k > 0`,
`items[(k-1)/2].priority <= items[k].priority`. -/
def IsHeap {T : Type} (items : List (T × ℚ)) : Prop :=
  ∀ k, 0 < k → k < items.length → prioD items ((k - 1) / 2) ≤ prioD items k

/-- The `Point2` interface (`{ x, y }`), coordinates as exact rationals. -/
structure Point2 where
  x : ℚ
  y : ℚ
deriving DecidableEq, Repr, Inhabited

/-- Numerator of the `perpendicularDistance` formula of
`src/unnamed/part_002` (line 73):
`Math.abs((y2 - y1) * x0 - (x2 - x1) * y0 + x2 * y1 - y2 * x1)`. -/
def perpNum (point lineStart lineEnd : Point2) : ℚ :=
  |(lineEnd.y - lineStart.y) * point.x - (lineEnd.x - lineStart.x) * point.y +
    lineEnd.x * lineStart.y - lineEnd.y * lineStart.x|

/-- Radicand of the denominator of `perpendicularDistance` (line 74):
`(y2 - y1) ** 2 + (x2 - x1) ** 2`; the denominator itself is its square
root. -/
def perpDen2 (lineStart lineEnd : Point2) : ℚ :=
  (lineEnd.y - lineStart.y) ^ 2 + (lineEnd.x - lineStart.x) ^ 2

/-- The exact value of the double `num / Math.sqrt den2` returned by
`perpendicularDistance`, relative to the `den2` of the enclosing
`findFurthestPoint` call (all distances of one call share it): `nan` is
JavaScript's `0 / 0`, `inf` is `num / 0` with `num > 0`, and `fin num`
denotes the finite nonnegative value `num / Real.sqrt den2` with
`den2 > 0`. -/
inductive PerpDist : Type
  | nan : PerpDist
  | inf : PerpDist
  | fin (num : ℚ) : PerpDist
deriving DecidableEq, Repr

/-- Embeds `perpendicularDistance` (`src/unnamed/part_002`, lines 61-77)
into the exact representation above. -/
def perpendicularDistance (point lineStart lineEnd : Point2) : PerpDist :=
  let num := perpNum point lineStart lineEnd
  let den2 := perpDen2 lineStart lineEnd
  if den2 = 0 then (if num = 0 then .nan else .inf) else .fin num

/-- The running `maxDist` of `findFurthestPoint`: its initial value `-1`,
or the value of a previously computed non-`nan` distance. -/
inductive MaxD : Type
  | negOne : MaxD
  | inf : MaxD
  | fin (num : ℚ) : MaxD
deriving DecidableEq, Repr

/-- A non-`nan` distance as a `maxDist` value. -/
def PerpDist.toMax : PerpDist → MaxD
  | .nan => .negOne
  | .inf => .inf
  | .fin num => .fin num

/-- Strict comparison of two `maxDist` values: `-1` is below every distance
value (all distances are nonnegative, the numerators being absolute
values), `Infinity` is above every finite value, and two finite values with
the same positive denominator `Real.sqrt den2` compare by numerator. -/
def MaxD.ltb : MaxD → MaxD → Bool
  | .negOne, .negOne => false
  | .negOne, _ => true
  | .fin _, .negOne => false
  | .fin a, .fin b => a < b
  | .fin _, .inf => true
  | .inf, _ => false

/-- The loop test `dist > maxDist` of `findFurthestPoint` (line 45) under
IEEE comparison semantics: false whenever `dist` is `NaN`, and the strict
order on values otherwise. -/
def PerpDist.gtMax (dist : PerpDist) (maxDist : MaxD) : Bool :=
  match dist with
  | .nan => false
  | d => MaxD.ltb maxDist d.toMax

/-- The final test `maxDist > epsilon` of `findFurthestPoint` (line 51)
under IEEE semantics, given the shared radicand `den2`: for a finite
distance `num / Real.sqrt den2` (with `num ≥ 0`, `den2 > 0`) the comparison
with `epsilon` is equivalent to `epsilon < 0 ∨ epsilon^2 * den2 < num^2`. -/
def MaxD.gtEps (maxDist : MaxD) (den2 epsilon : ℚ) : Bool :=
  match maxDist with
  | .negOne => epsilon < -1
  | .inf => true
  | .fin num => if epsilon < 0 then true else epsilon ^ 2 * den2 < num ^ 2

/-- One iteration of the `findFurthestPoint` loop (lines 43-49):
`if (dist > maxDist) { maxDist = dist; index = i; }`. -/
def ffStep (dist : ℕ → PerpDist) (acc : MaxD × Option ℕ) (i : ℕ) :
    MaxD × Option ℕ :=
  if (dist i).gtMax acc.1 then ((dist i).toMax, some i) else acc

/-- Embeds `findFurthestPoint` (`src/unnamed/part_002`, lines 36-52).  The
loop runs over the interior indices `1 .. path.length - 2`; the sentinel
`index = -1` is rendered as `none`. -/
def findFurthestPoint (path : List Point2) (epsilon : ℚ) : Option ℕ :=
  let lineStart := path.headD ⟨0, 0⟩
  let lineEnd := path.getLastD ⟨0, 0⟩
  let den2 := perpDen2 lineStart lineEnd
  let dist := fun i => perpendicularDistance (path.getD i ⟨0, 0⟩) lineStart lineEnd
  let r := (List.range' 1 (path.length - 2)).foldl (ffStep dist) (.negOne, none)
  if r.1.gtEps den2 epsilon then r.2 else none

/-- Embeds the recursion of `douglasPeucker` (`src/unnamed/part_002`,
lines 11-28) with a fuel argument bounding the recursion depth;
`path.length` fuel always suffices since both slices are strictly shorter.
`path.slice(0, index + 1)` is `take (index + 1)`, `path.slice(index)` is
`drop index`, and `left.slice(0, -1).concat(right)` is
`left.dropLast ++ right`. -/
def douglasPeuckerF : ℕ → List Point2 → ℚ → List Point2
  | 0, path, _ => path
  | fuel + 1, path, epsilon =>
    if path.length < 3 then path
    else
      match findFurthestPoint path epsilon with
      | none => [path.headD ⟨0, 0⟩, path.getLastD ⟨0, 0⟩]
      | some index =>
        let left := douglasPeuckerF fuel (path.take (index + 1)) epsilon
        let right := douglasPeuckerF fuel (path.drop index) epsilon
        left.dropLast ++ right

/-- Embeds `douglasPeucker` with sufficient fuel. -/
def douglasPeucker (path : List Point2) (epsilon : ℚ) : List Point2 :=
  douglasPeuckerF path.length path epsilon

/-- Interpretation of a `maxDist` value in the linear order
`WithBot (WithTop ℚ)`: `-1` is bottom (below every distance value),
`Infinity` is top, a finite value is its numerator.  `MaxD.ltb` is exactly
the strict order under this interpretation. -/
def MaxD.toW : MaxD → WithBot (WithTop ℚ)
  | .negOne => ⊥
  | .inf => ((⊤ : WithTop ℚ) : WithBot (WithTop ℚ))
  | .fin num => ((num : WithTop ℚ) : WithBot (WithTop ℚ))

/-! ### Helper lemmas: scalar utilities and vector algebra -/

theorem median_snd (values : List ℚ) :
    (median values).2 =
      if values.length = 0 then values else List.insertionSort (· ≤ ·) values := by
  unfold median
  split
  · rfl
  · dsimp only
    split <;> rfl

theorem foldl_add_components (l : List Vector2) (acc : Vector2) :
    (l.foldl Vector2.add acc).x = acc.x + (l.map Vector2.x).sum ∧
    (l.foldl Vector2.add acc).y = acc.y + (l.map Vector2.y).sum := by
  induction l generalizing acc with
  | nil => simp
  | cons v t ih =>
    have h := ih (acc.add v)
    simp only [List.foldl_cons, List.map_cons, List.sum_cons] at h ⊢
    rw [h.1, h.2]
    simp [Vector2.add]
    constructor <;> ring

/-! ### C10, C7, C8 -/

/-- C10: `median` mutates its argument: after a call to `median(values)`
the caller's array (the second component of the embedded result) is a
permutation of its original contents sorted in ascending order. -/
theorem median_sorts_argument_in_place (values : List ℚ) :
    (median values).2.Perm values ∧ (median values).2.Sorted (· ≤ ·) := by
  rw [median_snd]
  split
  · next h =>
    have : values = [] := List.eq_nil_of_length_eq_zero h
    subst this
    exact ⟨List.Perm.refl _, List.sorted_nil⟩
  · exact ⟨List.perm_insertionSort _ _, List.sorted_insertionSort _ _⟩

/-- C7: `Vector2.divide` fails exactly on scalar `0` and otherwise returns
the componentwise quotient; `Vector2.center` fails exactly on the empty
list and otherwise returns the componentwise mean; `median []` returns
`0`. -/
theorem divide_center_median_error_policy :
    (∀ (v : Vector2) (s : ℚ), (∃ e, v.divide s = .error e) ↔ s = 0) ∧
    (∀ (v : Vector2) (s : ℚ), s ≠ 0 → v.divide s = .ok ⟨v.x / s, v.y / s⟩) ∧
    (∀ vectors : List Vector2,
      (∃ e, Vector2.center vectors = .error e) ↔ vectors = []) ∧
    (∀ vectors : List Vector2, vectors ≠ [] →
      Vector2.center vectors =
        .ok ⟨(vectors.map Vector2.x).sum / vectors.length,
             (vectors.map Vector2.y).sum / vectors.length⟩) ∧
    (median []).1 = 0 := by
  refine ⟨?_, ?_, ?_, ?_, rfl⟩
  · intro v s
    unfold Vector2.divide
    split
    · next h => simp [h]
    · next h => simp [h]
  · intro v s hs
    unfold Vector2.divide
    simp [hs]
  · intro vectors
    unfold Vector2.center
    split
    · next h => simp [List.eq_nil_of_length_eq_zero h]
    · next h =>
      simp only [Except.ok.injEq]
      constructor
      · rintro ⟨e, he⟩
        exact absurd he (by simp)
      · intro hnil
        exact absurd (by simp [hnil]) h
  · intro vectors hne
    unfold Vector2.center
    have hlen : vectors.length ≠ 0 := by simpa using hne
    simp only [hlen, if_false]
    have h := foldl_add_components vectors ⟨0, 0⟩
    simp only [Except.ok.injEq, Vector2.mk.injEq]
    constructor
    · rw [h.1]; norm_num
    · rw [h.2]; norm_num

/-- C7 witness: the theorem applied at the concrete inputs
`divide ⟨6, 4⟩ 2` and `center [⟨1, 2⟩, ⟨3, 4⟩]`. -/
theorem divide_center_median_error_policy_witness :
    Vector2.divide ⟨6, 4⟩ 2 = .ok ⟨3, 2⟩ ∧
    Vector2.center [⟨1, 2⟩, ⟨3, 4⟩] = .ok ⟨2, 3⟩ := by
  constructor
  · have h := divide_center_median_error_policy.2.1 ⟨6, 4⟩ 2 (by norm_num)
    rw [h]
    norm_num
  · have h := divide_center_median_error_policy.2.2.2.1 [⟨1, 2⟩, ⟨3, 4⟩] (by simp)
    rw [h]
    norm_num

theorem keys_add (s : Vector2Set) (v : Vector2) :
    (s.add v).keys =
      if v.toKeyString ∈ s.keys then s.keys else s.keys ++ [v.toKeyString] := by
  unfold Vector2Set.add Vector2Set.keys mapSet
  have hmem : (s.map.any fun e => e.1 = v.toKeyString) = true ↔
      v.toKeyString ∈ s.map.map Prod.fst := by
    simp [List.any_eq_true, List.mem_map, decide_eq_true_eq]
  split
  · next hany =>
    rw [if_pos (hmem.mp hany)]
    dsimp only
    rw [List.map_map]
    refine List.map_congr_left ?_
    intro e _
    by_cases he : e.1 = v.toKeyString
    · simp [he]
    · simp [he]
  · next hany =>
    rw [if_neg (fun hm => hany (hmem.mpr hm))]
    simp

/-- C8: after any sequence of `add` calls the `Vector2Set` stores at most
one vector per distinct coordinate pair (the backing keys are pairwise
distinct), adding a vector with already-present coordinates replaces
instead of growing, and the concrete sequence
`add (1,2); add (1,2); add (3,4)` leaves exactly 2 elements. -/
theorem vector2set_dedup_invariant :
    (∀ vs : List Vector2, (Vector2Set.mk0.addAll vs).keys.Nodup) ∧
    (∀ (s : Vector2Set) (v : Vector2),
      (s.add v).map.length =
        if v.toKeyString ∈ s.keys then s.map.length else s.map.length + 1) ∧
    (Vector2Set.mk0.addAll [⟨1, 2⟩, ⟨1, 2⟩, ⟨3, 4⟩]).toArray.length = 2 := by
  refine ⟨?_, ?_, by rfl⟩
  · have key : ∀ (vs : List Vector2) (s : Vector2Set),
        s.keys.Nodup → (s.addAll vs).keys.Nodup := by
      intro vs
      induction vs with
      | nil => intro s hs; exact hs
      | cons v t ih =>
        intro s hs
        have hadd : (s.add v).keys.Nodup := by
          rw [keys_add]
          split
          · exact hs
          · next hnot =>
            refine hs.append (List.nodup_singleton _) ?_
            simpa [List.disjoint_singleton] using hnot
        exact ih (s.add v) hadd
    intro vs
    exact key vs Vector2Set.mk0 (by simp [Vector2Set.mk0, Vector2Set.keys])
  · intro s v
    unfold Vector2Set.add mapSet
    have hmem : (s.map.any fun e => e.1 = v.toKeyString) = true ↔
        v.toKeyString ∈ s.keys := by
      simp [List.any_eq_true, Vector2Set.keys, List.mem_map, decide_eq_true_eq]
    split
    · next hany => rw [if_pos (hmem.mp hany)]; exact List.length_map _ _
    · next hany =>
      rw [if_neg (fun hm => hany (hmem.mpr hm))]
      rw [List.length_append, List.length_singleton]

theorem jsMod_bounds (a b : ℚ) (hb : 0 < b) :
    (0 ≤ a → 0 ≤ jsMod a b ∧ jsMod a b < b) ∧
    (a < 0 → -b < jsMod a b ∧ jsMod a b ≤ 0) := by
  have hb0 : b ≠ 0 := ne_of_gt hb
  have hba : b * (a / b) = a := by field_simp
  constructor
  · intro ha
    have hq : 0 ≤ a / b := div_nonneg ha hb.le
    unfold jsMod jsTrunc
    rw [if_pos hq]
    have h1 : (⌊a / b⌋ : ℚ) ≤ a / b := Int.floor_le _
    have h2 : a / b < ⌊a / b⌋ + 1 := Int.lt_floor_add_one _
    have h3 : b * (⌊a / b⌋ : ℚ) ≤ a := by
      calc b * (⌊a / b⌋ : ℚ) ≤ b * (a / b) := by
            exact mul_le_mul_of_nonneg_left h1 hb.le
        _ = a := hba
    have h4 : a < b * ((⌊a / b⌋ : ℚ) + 1) := by
      calc a = b * (a / b) := hba.symm
        _ < b * ((⌊a / b⌋ : ℚ) + 1) := by
            exact mul_lt_mul_of_pos_left h2 hb
    constructor <;> nlinarith
  · intro ha
    have hq : ¬ 0 ≤ a / b := by
      rw [not_le]
      exact div_neg_of_neg_of_pos ha hb
    unfold jsMod jsTrunc
    rw [if_neg hq]
    have h1 : a / b ≤ (⌈a / b⌉ : ℚ) := Int.le_ceil _
    have h2 : (⌈a / b⌉ : ℚ) < a / b + 1 := Int.ceil_lt_add_one _
    have h3 : a ≤ b * (⌈a / b⌉ : ℚ) := by
      calc a = b * (a / b) := hba.symm
        _ ≤ b * (⌈a / b⌉ : ℚ) := mul_le_mul_of_nonneg_left h1 hb.le
    have h4 : b * (⌈a / b⌉ : ℚ) < a + b := by
      calc b * (⌈a / b⌉ : ℚ) < b * (a / b + 1) := mul_lt_mul_of_pos_left h2 hb
        _ = a + b := by rw [mul_add, hba, mul_one]
    constructor <;> nlinarith

/-- C5 (code bug): `radiansToDegreesNormalized` ends in `Math.round`, so at
`radians = 6.28` (≈ 359.82°) it returns 360, outside the claimed `[0, 360)`
— contradicting its own doc comment "ensures the result is within the range
[0, 360)".  The companion `degreesToRadiansNormalized` does stay inside
`[0, TWO_PI)` for every input. -/
theorem radiansToDegreesNormalized_escapes_range :
    radiansToDegreesNormalized (157 / 25) = 360 ∧
    ¬ radiansToDegreesNormalized (157 / 25) < 360 ∧
    ∀ degrees : ℚ, 0 ≤ degreesToRadiansNormalized degrees ∧
      degreesToRadiansNormalized degrees < TWO_PI := by
  have hval : radiansToDegreesNormalized (157 / 25) = 360 := by
    norm_num [radiansToDegreesNormalized, jsMod, jsTrunc, jsRound, piQ]
  refine ⟨hval, ?_, ?_⟩
  · rw [hval]
    norm_num
  · intro degrees
    simp only [degreesToRadiansNormalized]
    have hb : (0 : ℚ) < TWO_PI := by norm_num [TWO_PI, piQ]
    by_cases h : jsMod (degrees * DEG_TO_RAD) TWO_PI < 0
    · rw [if_pos h]
      rcases le_or_lt 0 (degrees * DEG_TO_RAD) with ha | ha
      · exact absurd h (not_lt.mpr ((jsMod_bounds _ _ hb).1 ha).1)
      · have hB := (jsMod_bounds _ _ hb).2 ha
        constructor <;> linarith [hB.1, hB.2]
    · rw [if_neg h]
      push_neg at h
      refine ⟨h, ?_⟩
      rcases le_or_lt 0 (degrees * DEG_TO_RAD) with ha | ha
      · exact ((jsMod_bounds _ _ hb).1 ha).2
      · have hB := (jsMod_bounds _ _ hb).2 ha
        linarith [hB.2]

/-! ### C6: zero-vector normalization conventions -/

/-- C6: `Vector2.normalize` of the zero vector takes the guarded branch and
builds a fresh `(0, 0)`, while `Vector3.normalize` of a zero-length vector
returns the original value unchanged; every non-zero vector is scaled by
the reciprocal of its length in both classes, and neither method has a
failure path. -/
theorem normalize_zero_conventions :
    (Vector2R.normalize ⟨0, 0⟩ = ⟨0, 0⟩) ∧
    (∀ v : Vector3R, v.length = 0 → v.normalize = v) ∧
    (∀ v : Vector2R, ¬(v.x = 0 ∧ v.y = 0) →
      v.normalize = ⟨v.x * (1 / v.length), v.y * (1 / v.length)⟩) ∧
    (∀ v : Vector3R, v.length ≠ 0 → v.normalize = v.scale (1 / v.length)) := by
  refine ⟨?_, ?_, ?_, ?_⟩
  · simp [Vector2R.normalize, Vector2R.length]
  · intro v h
    show (if 0 < v.length then v.scale (1 / v.length) else v) = v
    rw [h]
    simp
  · intro v h
    have hsum : 0 < v.x * v.x + v.y * v.y := by
      rcases not_and_or.mp h with hx | hy
      · have := mul_self_pos.mpr hx
        nlinarith [mul_self_nonneg v.y]
      · have := mul_self_pos.mpr hy
        nlinarith [mul_self_nonneg v.x]
    have hlen : v.length ≠ 0 :=
      ne_of_gt (Real.sqrt_pos.mpr hsum)
    show (if v.length = 0 then (⟨0, 0⟩ : Vector2R)
          else ⟨v.x / v.length, v.y / v.length⟩) =
        ⟨v.x * (1 / v.length), v.y * (1 / v.length)⟩
    rw [if_neg hlen, mul_one_div, mul_one_div]
  · intro v h
    have hpos : 0 < v.length :=
      lt_of_le_of_ne (Real.sqrt_nonneg _) (Ne.symm h)
    show (if 0 < v.length then v.scale (1 / v.length) else v) = v.scale (1 / v.length)
    rw [if_pos hpos]

/-- C6 witness: the theorem applied at `(0,0,0)` (zero length), `(3,4)`
(length 5) and `(0,0,2)` (length 2). -/
theorem normalize_zero_conventions_witness :
    Vector3R.normalize ⟨0, 0, 0⟩ = ⟨0, 0, 0⟩ ∧
    Vector2R.normalize ⟨3, 4⟩ = ⟨3 * (1 / 5), 4 * (1 / 5)⟩ ∧
    Vector3R.normalize ⟨0, 0, 2⟩ = Vector3R.scale ⟨0, 0, 2⟩ (1 / 2) := by
  have h2 : Vector2R.length ⟨3, 4⟩ = 5 := by
    unfold Vector2R.length
    rw [show ((3 : ℝ) * 3 + 4 * 4) = 5 ^ 2 by norm_num]
    exact Real.sqrt_sq (by norm_num)
  have h3 : Vector3R.length ⟨0, 0, 2⟩ = 2 := by
    unfold Vector3R.length
    rw [show ((0 : ℝ) ^ 2 + 0 ^ 2 + 2 ^ 2) = 2 ^ 2 by norm_num]
    exact Real.sqrt_sq (by norm_num)
  refine ⟨?_, ?_, ?_⟩
  · refine normalize_zero_conventions.2.1 ⟨0, 0, 0⟩ ?_
    unfold Vector3R.length
    simp
  · have h := normalize_zero_conventions.2.2.1 ⟨3, 4⟩ (by norm_num)
    rw [h]
    dsimp only
    rw [h2]
  · have h := normalize_zero_conventions.2.2.2 ⟨0, 0, 2⟩ (by rw [h3]; norm_num)
    rw [h, h3]

/-! ### Helper lemmas: Douglas-Peucker -/

open scoped List

theorem maxD_ltb_iff (a b : MaxD) : MaxD.ltb a b = true ↔ a.toW < b.toW := by
  cases a <;> cases b <;>
    simp [MaxD.ltb, MaxD.toW, WithBot.bot_lt_coe, WithBot.coe_lt_coe,
      WithTop.coe_lt_top, WithTop.coe_lt_coe, lt_top_iff_ne_top,
      WithTop.coe_ne_top]

theorem gtMax_iff (d : PerpDist) (m : MaxD) :
    d.gtMax m = true ↔ d ≠ .nan ∧ m.toW < d.toMax.toW := by
  cases d <;> simp [PerpDist.gtMax, maxD_ltb_iff]

theorem ffFold_fst_mono (dist : ℕ → PerpDist) (is : List ℕ)
    (acc : MaxD × Option ℕ) :
    acc.1.toW ≤ (List.foldl (ffStep dist) acc is).1.toW := by
  induction is generalizing acc with
  | nil => simp
  | cons i t ih =>
    rw [List.foldl_cons]
    refine le_trans ?_ (ih (ffStep dist acc i))
    unfold ffStep
    split
    · next hfire => exact le_of_lt ((gtMax_iff _ _).mp hfire).2
    · exact le_refl _

theorem ffFold_bound (dist : ℕ → PerpDist) (is : List ℕ)
    (acc : MaxD × Option ℕ) :
    ∀ j ∈ is, (dist j).toMax.toW ≤ (List.foldl (ffStep dist) acc is).1.toW := by
  induction is generalizing acc with
  | nil => simp
  | cons i t ih =>
    intro j hj
    rw [List.foldl_cons]
    rcases List.mem_cons.mp hj with rfl | hjt
    · refine le_trans ?_ (ffFold_fst_mono dist t (ffStep dist acc j))
      unfold ffStep
      split
      · exact le_refl _
      · next hnf =>
        by_cases hd : dist j = .nan
        · rw [hd]
          exact bot_le
        · have : ¬ acc.1.toW < (dist j).toMax.toW := by
            intro hlt
            exact hnf ((gtMax_iff _ _).mpr ⟨hd, hlt⟩)
          exact le_of_not_lt this
    · exact ih (ffStep dist acc i) j hjt

theorem ffFold_provenance (dist : ℕ → PerpDist) (is : List ℕ)
    (acc : MaxD × Option ℕ) :
    List.foldl (ffStep dist) acc is = acc ∨
    ∃ i ∈ is, List.foldl (ffStep dist) acc is = ((dist i).toMax, some i) ∧
      dist i ≠ .nan := by
  induction is generalizing acc with
  | nil => left; rfl
  | cons i t ih =>
    rw [List.foldl_cons]
    rcases ih (ffStep dist acc i) with h | ⟨j, hj, hfold, hnan⟩
    · rw [h]
      unfold ffStep
      split
      · next hfire =>
        right
        exact ⟨i, List.mem_cons_self _ _, rfl, ((gtMax_iff _ _).mp hfire).1⟩
      · left; rfl
    · right
      exact ⟨j, List.mem_cons_of_mem _ hj, hfold, hnan⟩

theorem ffFold_nofire (dist : ℕ → PerpDist) (is : List ℕ) (m : MaxD)
    (o : Option ℕ) :
    (∀ j ∈ is, (dist j).gtMax m = false) →
    List.foldl (ffStep dist) (m, o) is = (m, o) := by
  induction is with
  | nil => intro _; rfl
  | cons i t ih =>
    intro h
    rw [List.foldl_cons]
    have hstep : ffStep dist (m, o) i = (m, o) := by
      unfold ffStep
      rw [h i (List.mem_cons_self _ _)]
      simp
    rw [hstep]
    exact ih (fun j hj => h j (List.mem_cons_of_mem _ hj))

theorem ffFold_first_max (dist : ℕ → PerpDist) (is1 is2 : List ℕ) (p : ℕ)
    (hp : dist p ≠ .nan)
    (h1 : ∀ j ∈ is1, (dist j).toMax.toW < (dist p).toMax.toW)
    (h2 : ∀ j ∈ is2, ¬ (dist p).toMax.toW < (dist j).toMax.toW) :
    List.foldl (ffStep dist) (.negOne, none) (is1 ++ p :: is2) =
      ((dist p).toMax, some p) := by
  rw [List.foldl_append, List.foldl_cons]
  have hm1 : (List.foldl (ffStep dist) (.negOne, none) is1).1.toW <
      (dist p).toMax.toW := by
    rcases ffFold_provenance dist is1 (.negOne, none) with h | ⟨j, hj, hfold, _⟩
    · rw [h]
      show (MaxD.negOne).toW < _
      rcases hd : dist p with _ | _ | n
      · exact absurd hd hp
      · simp [PerpDist.toMax, MaxD.toW, WithBot.bot_lt_coe]
      · simp [PerpDist.toMax, MaxD.toW, WithBot.bot_lt_coe]
    · rw [hfold]
      exact h1 j hj
  have hstep : ffStep dist (List.foldl (ffStep dist) (.negOne, none) is1) p =
      ((dist p).toMax, some p) := by
    show (if (dist p).gtMax (List.foldl (ffStep dist) (MaxD.negOne, none) is1).1 = true
          then ((dist p).toMax, some p)
          else List.foldl (ffStep dist) (MaxD.negOne, none) is1) =
        ((dist p).toMax, some p)
    rw [if_pos ((gtMax_iff _ _).mpr ⟨hp, hm1⟩)]
  rw [hstep]
  refine ffFold_nofire dist is2 _ _ (fun j hj => ?_)
  cases hgt : (dist j).gtMax (dist p).toMax
  · rfl
  · exact absurd ((gtMax_iff _ _).mp hgt).2 (h2 j hj)

theorem findFurthestPoint_some {path : List Point2} {epsilon : ℚ} {i : ℕ}
    (h : findFurthestPoint path epsilon = some i) :
    1 ≤ i ∧ i + 1 < path.length := by
  simp only [findFurthestPoint] at h
  split at h
  · rcases ffFold_provenance
        (fun j => perpendicularDistance (path.getD j ⟨0, 0⟩)
          (path.headD ⟨0, 0⟩) (path.getLastD ⟨0, 0⟩))
        (List.range' 1 (path.length - 2)) (.negOne, none) with hc | ⟨j, hj, hfold, _⟩
    · rw [hc] at h
      exact absurd h (by simp)
    · rw [hfold] at h
      have hji : j = i := by simpa using h
      subst hji
      have hmem := List.mem_range'_1.mp hj
      omega
  · exact absurd h (by simp)

theorem douglasPeuckerF_short (fuel : ℕ) (path : List Point2) (epsilon : ℚ)
    (h : path.length < 3) : douglasPeuckerF fuel path epsilon = path := by
  cases fuel with
  | zero => rfl
  | succ f => simp [douglasPeuckerF, h]

theorem douglasPeuckerF_congr : ∀ (n fuel : ℕ) (path : List Point2) (epsilon : ℚ),
    path.length ≤ fuel → path.length ≤ n →
    douglasPeuckerF fuel path epsilon = douglasPeuckerF n path epsilon := by
  intro n
  induction n with
  | zero =>
    intro fuel path epsilon _ hn
    have h3 : path.length < 3 := by omega
    rw [douglasPeuckerF_short _ _ _ h3, douglasPeuckerF_short _ _ _ h3]
  | succ m ih =>
    intro fuel path epsilon hf hn
    by_cases h3 : path.length < 3
    · rw [douglasPeuckerF_short _ _ _ h3, douglasPeuckerF_short _ _ _ h3]
    · cases fuel with
      | zero => omega
      | succ f =>
        show douglasPeuckerF (f + 1) path epsilon = douglasPeuckerF (m + 1) path epsilon
        simp only [douglasPeuckerF]
        rw [if_neg h3, if_neg h3]
        cases hffp : findFurthestPoint path epsilon with
        | none => rfl
        | some i =>
          have hib := findFurthestPoint_some hffp
          have htake : (path.take (i + 1)).length = i + 1 := by
            rw [List.length_take]; omega
          have hdrop : (path.drop i).length = path.length - i := List.length_drop _ _
          dsimp only
          rw [ih f (path.take (i + 1)) epsilon (by omega) (by omega),
            ih f (path.drop i) epsilon (by omega) (by omega)]

theorem douglasPeucker_unfold (path : List Point2) (epsilon : ℚ) :
    douglasPeucker path epsilon =
      if path.length < 3 then path
      else
        match findFurthestPoint path epsilon with
        | none => [path.headD ⟨0, 0⟩, path.getLastD ⟨0, 0⟩]
        | some i =>
          (douglasPeucker (path.take (i + 1)) epsilon).dropLast ++
            douglasPeucker (path.drop i) epsilon := by
  by_cases h3 : path.length < 3
  · rw [if_pos h3]
    exact douglasPeuckerF_short _ _ _ h3
  · rw [if_neg h3]
    unfold douglasPeucker
    obtain ⟨m, hm⟩ : ∃ m, path.length = m + 1 := ⟨path.length - 1, by omega⟩
    conv_lhs => rw [hm]
    simp only [douglasPeuckerF]
    rw [if_neg h3]
    cases hffp : findFurthestPoint path epsilon with
    | none => rfl
    | some i =>
      have hib := findFurthestPoint_some hffp
      have htake : (path.take (i + 1)).length = i + 1 := by
        rw [List.length_take]; omega
      have hdrop : (path.drop i).length = path.length - i := List.length_drop _ _
      dsimp only
      rw [douglasPeuckerF_congr (path.take (i + 1)).length m (path.take (i + 1))
          epsilon (by omega) (by omega),
        douglasPeuckerF_congr (path.drop i).length m (path.drop i) epsilon
          (by omega) (by omega)]

theorem douglasPeucker_short (path : List Point2) (epsilon : ℚ)
    (h : path.length < 3) : douglasPeucker path epsilon = path :=
  douglasPeuckerF_short _ _ _ h

theorem head?_dropLast {α : Type} (l : List α) (h : 2 ≤ l.length) :
    l.dropLast.head? = l.head? := by
  match l, h with
  | a :: b :: t, _ => simp [List.dropLast]

theorem sublist_of_sublist_concat {α : Type} [DecidableEq α] {l l₁ : List α}
    {a : α} (h : l <+ l₁ ++ [a]) : l.dropLast <+ l₁ := by
  rcases List.sublist_append_iff.mp h with ⟨r₁, r₂, hl, h₁, h₂⟩
  cases r₂ with
  | nil =>
    rw [hl, List.append_nil]
    exact List.Sublist.trans (List.dropLast_sublist _) h₁
  | cons x xs =>
    have hx : x = a ∧ xs = [] := by
      cases h₂ with
      | cons _ h' => simp at h'
      | cons₂ _ h' => exact ⟨rfl, List.sublist_nil.mp h'⟩
    rw [hl, hx.1, hx.2, List.dropLast_concat]
    exact h₁

theorem dp_struct : ∀ (n : ℕ) (path : List Point2) (epsilon : ℚ),
    path.length ≤ n →
    (douglasPeucker path epsilon).length ≤ path.length ∧
    (2 ≤ path.length → 2 ≤ (douglasPeucker path epsilon).length) ∧
    (douglasPeucker path epsilon).head? = path.head? ∧
    (douglasPeucker path epsilon).getLast? = path.getLast? ∧
    douglasPeucker path epsilon <+ path := by
  intro n
  induction n with
  | zero =>
    intro path epsilon hlen
    rw [douglasPeucker_short _ _ (by omega)]
    exact ⟨le_refl _, fun h => h, rfl, rfl, List.Sublist.refl _⟩
  | succ n ih =>
    intro path epsilon hlen
    by_cases h3 : path.length < 3
    · rw [douglasPeucker_short _ _ h3]
      exact ⟨le_refl _, fun h => h, rfl, rfl, List.Sublist.refl _⟩
    · push_neg at h3
      rw [douglasPeucker_unfold, if_neg (by omega)]
      cases hffp : findFurthestPoint path epsilon with
      | none =>
        dsimp only
        match path, h3 with
        | a :: b :: c :: t, _ =>
          have hne : b :: c :: t ≠ [] := by simp
          obtain ⟨z, hz⟩ : ∃ z, (a :: b :: c :: t).getLast? = some z :=
            ⟨_, List.getLast?_eq_getLast _ (by simp)⟩
          have hzmem : z ∈ b :: c :: t := by
            rw [List.getLast?_cons_cons] at hz
            have := List.getLast?_eq_getLast (b :: c :: t) (by simp)
            rw [this] at hz
            have hzz := Option.some.inj hz
            rw [← hzz]
            exact List.getLast_mem _
          refine ⟨by simp, fun _ => by simp, ?_, ?_, ?_⟩
          · simp [List.headD]
          · rw [List.getLastD_eq_getLast?, hz]
            simp
          · rw [List.getLastD_eq_getLast?, hz]
            show [a, z] <+ a :: b :: c :: t
            refine List.Sublist.cons₂ a ?_
            exact List.singleton_sublist.mpr hzmem
      | some i =>
        dsimp only
        have hib := findFurthestPoint_some hffp
        have htl : (path.take (i + 1)).length = i + 1 := by
          rw [List.length_take]; omega
        have hdl : (path.drop i).length = path.length - i := List.length_drop _ _
        obtain ⟨IHl1, IHl2, IHl3, IHl4, IHl5⟩ :=
          ih (path.take (i + 1)) epsilon (by omega)
        obtain ⟨IHr1, IHr2, IHr3, IHr4, IHr5⟩ :=
          ih (path.drop i) epsilon (by omega)
        have hL2 : 2 ≤ (douglasPeucker (path.take (i + 1)) epsilon).length :=
          IHl2 (by omega)
        have hR2 : 2 ≤ (douglasPeucker (path.drop i) epsilon).length :=
          IHr2 (by omega)
        have hLd_ne : (douglasPeucker (path.take (i + 1)) epsilon).dropLast ≠ [] := by
          have : (douglasPeucker (path.take (i + 1)) epsilon).dropLast.length =
              (douglasPeucker (path.take (i + 1)) epsilon).length - 1 :=
            List.length_dropLast _
          intro hc
          rw [hc] at this
          simp at this
          omega
        have hR_ne : douglasPeucker (path.drop i) epsilon ≠ [] := by
          intro hc
          rw [hc] at hR2
          simp at hR2
        refine ⟨?_, ?_, ?_, ?_, ?_⟩
        · rw [List.length_append, List.length_dropLast]
          omega
        · intro _
          rw [List.length_append]
          omega
        · rw [List.head?_append_of_ne_nil _ hLd_ne,
            head?_dropLast _ hL2, IHl3, List.head?_take]
          simp
        · rw [List.getLast?_append_of_ne_nil _ hR_ne, IHr4, List.getLast?_drop]
          rw [if_neg (by omega)]
        · have hsubL : (douglasPeucker (path.take (i + 1)) epsilon).dropLast <+
              path.take i := by
            have hpi : path[i]? = some (path.getD i ⟨0, 0⟩) := by
              rw [List.getD_eq_getElem?_getD, List.getElem?_eq_getElem (by omega : i < path.length)]
              rfl
            have hts : path.take (i + 1) = path.take i ++ [path.getD i ⟨0, 0⟩] := by
              rw [List.take_succ, hpi]
              rfl
            have hsub2 : douglasPeucker (path.take (i + 1)) epsilon <+
                path.take i ++ [path.getD i ⟨0, 0⟩] := by
              rw [← hts]
              exact IHl5
            exact sublist_of_sublist_concat hsub2
          have : (douglasPeucker (path.take (i + 1)) epsilon).dropLast ++
              douglasPeucker (path.drop i) epsilon <+ path.take i ++ path.drop i :=
            List.Sublist.append hsubL IHr5
          rwa [List.take_append_drop] at this

/-! ### C2, C9 -/

/-- C2: for every path and non-negative tolerance the simplified path is
never longer than the input, and on a non-empty input it starts with the
input's first element and ends with the input's last element. -/
theorem dp_endpoints_and_length (path : List Point2) (epsilon : ℚ)
    (_heps : 0 ≤ epsilon) :
    (douglasPeucker path epsilon).length ≤ path.length ∧
    (path ≠ [] →
      (douglasPeucker path epsilon).head? = path.head? ∧
      (douglasPeucker path epsilon).getLast? = path.getLast?) := by
  obtain ⟨h1, _, h3, h4, _⟩ := dp_struct path.length path epsilon (le_refl _)
  exact ⟨h1, fun _ => ⟨h3, h4⟩⟩

/-- C2 witness: the theorem applied at a concrete 3-point path with
tolerance `1/2`. -/
theorem dp_endpoints_and_length_witness :
    (douglasPeucker [⟨0, 0⟩, ⟨1, 1⟩, ⟨2, 0⟩] (1/2)).length ≤ 3 ∧
    (douglasPeucker [⟨0, 0⟩, ⟨1, 1⟩, ⟨2, 0⟩] (1/2)).head? = some ⟨0, 0⟩ ∧
    (douglasPeucker [⟨0, 0⟩, ⟨1, 1⟩, ⟨2, 0⟩] (1/2)).getLast? = some ⟨2, 0⟩ := by
  have h := dp_endpoints_and_length [⟨0, 0⟩, ⟨1, 1⟩, ⟨2, 0⟩] (1/2) (by norm_num)
  refine ⟨h.1, ?_, ?_⟩
  · rw [(h.2 (by simp)).1]
    rfl
  · rw [(h.2 (by simp)).2]
    rfl

theorem perpendicularDistance_coincident (p s : Point2) :
    perpendicularDistance p s s = .nan := by
  unfold perpendicularDistance perpNum perpDen2
  have h1 : ((s.y - s.y) ^ 2 + (s.x - s.x) ^ 2 : ℚ) = 0 := by ring
  have h2 : |(s.y - s.y) * p.x - (s.x - s.x) * p.y + s.x * s.y - s.y * s.x| =
      (0 : ℚ) := by
    rw [abs_eq_zero]
    ring
  simp [h1, h2]
  ring

/-- C9: on a path of length at least 3 whose first and last elements have
identical coordinates, every perpendicular distance is computed against a
zero-length reference segment and comes out as `NaN` (`0/0`), so
`findFurthestPoint` returns its `-1` sentinel and the whole path collapses
to its two endpoints, whatever the tolerance. -/
theorem dp_closed_path_collapses (path : List Point2) (epsilon : ℚ)
    (hlen : 3 ≤ path.length)
    (hclosed : path.headD ⟨0, 0⟩ = path.getLastD ⟨0, 0⟩) :
    (∀ p s : Point2, perpendicularDistance p s s = .nan) ∧
    findFurthestPoint path epsilon = none ∧
    douglasPeucker path epsilon =
      [path.headD ⟨0, 0⟩, path.getLastD ⟨0, 0⟩] := by
  have hffp : findFurthestPoint path epsilon = none := by
    simp only [findFurthestPoint]
    rw [← hclosed]
    have hfold : (List.range' 1 (path.length - 2)).foldl
        (ffStep (fun i => perpendicularDistance (path.getD i ⟨0, 0⟩)
          (path.headD ⟨0, 0⟩) (path.headD ⟨0, 0⟩))) (.negOne, none) =
        (.negOne, none) :=
      ffFold_nofire _ _ _ _ (fun j _ => by
        rw [perpendicularDistance_coincident]
        rfl)
    rw [hfold]
    split <;> rfl
  refine ⟨perpendicularDistance_coincident, hffp, ?_⟩
  rw [douglasPeucker_unfold, if_neg (by omega), hffp]

/-- C9 witness: a closed triangle-like path with a far interior point and
tolerance 5 collapses to its coincident endpoints. -/
theorem dp_closed_path_collapses_witness :
    douglasPeucker [⟨0, 0⟩, ⟨100, 100⟩, ⟨0, 0⟩] 5 = [⟨0, 0⟩, ⟨0, 0⟩] := by
  have h := dp_closed_path_collapses [⟨0, 0⟩, ⟨100, 100⟩, ⟨0, 0⟩] 5
    (by norm_num) rfl
  rw [h.2.2]
  rfl

theorem perpDen2_nonneg (s e : Point2) : 0 ≤ perpDen2 s e := by
  unfold perpDen2
  positivity

theorem gtEps_antitone {m : MaxD} {den2 e1 e2 : ℚ} (hden : 0 ≤ den2)
    (h12 : e1 ≤ e2) (h : m.gtEps den2 e2 = true) : m.gtEps den2 e1 = true := by
  cases m with
  | negOne =>
    simp only [MaxD.gtEps, decide_eq_true_eq] at h ⊢
    linarith
  | inf => rfl
  | fin num =>
    simp only [MaxD.gtEps] at h ⊢
    by_cases h1 : e1 < 0
    · rw [if_pos h1]
    · rw [if_neg h1]
      have h2 : ¬ e2 < 0 := by
        intro hc
        exact h1 (by linarith)
      rw [if_neg h2] at h
      simp only [decide_eq_true_eq] at h ⊢
      push_neg at h1 h2
      have hsq : e1 ^ 2 ≤ e2 ^ 2 := by nlinarith
      nlinarith [mul_le_mul_of_nonneg_right hsq hden]

theorem findFurthestPoint_mono {path : List Point2} {e1 e2 : ℚ} {i : ℕ}
    (h12 : e1 ≤ e2) (h : findFurthestPoint path e2 = some i) :
    findFurthestPoint path e1 = some i := by
  simp only [findFurthestPoint] at h ⊢
  split at h
  · next hcond =>
    rw [if_pos (gtEps_antitone (perpDen2_nonneg _ _) h12 hcond)]
    exact h
  · exact absurd h (by simp)

theorem dp_mono_aux : ∀ (n : ℕ) (path : List Point2) (e1 e2 : ℚ),
    path.length ≤ n → e1 ≤ e2 →
    (douglasPeucker path e2).length ≤ (douglasPeucker path e1).length := by
  intro n
  induction n with
  | zero =>
    intro path e1 e2 hlen _
    rw [douglasPeucker_short _ _ (by omega), douglasPeucker_short _ _ (by omega)]
  | succ n ih =>
    intro path e1 e2 hlen h12
    by_cases h3 : path.length < 3
    · rw [douglasPeucker_short _ _ h3, douglasPeucker_short _ _ h3]
    · cases hffp2 : findFurthestPoint path e2 with
      | none =>
        rw [douglasPeucker_unfold path e2, if_neg h3, hffp2]
        have h2 := (dp_struct path.length path e1 (le_refl _)).2.1 (by omega)
        dsimp only
        simpa using h2
      | some i =>
        have hffp1 := findFurthestPoint_mono h12 hffp2
        have hib := findFurthestPoint_some hffp2
        rw [douglasPeucker_unfold path e2, douglasPeucker_unfold path e1,
          if_neg h3, if_neg h3, hffp2, hffp1]
        dsimp only
        have htl : (path.take (i + 1)).length = i + 1 := by
          rw [List.length_take]; omega
        have hdl : (path.drop i).length = path.length - i := List.length_drop _ _
        have hL := ih (path.take (i + 1)) e1 e2 (by omega) h12
        have hR := ih (path.drop i) e1 e2 (by omega) h12
        have hL1 : 2 ≤ (douglasPeucker (path.take (i + 1)) e1).length :=
          (dp_struct (path.take (i + 1)).length _ e1 (le_refl _)).2.1 (by omega)
        rw [List.length_append, List.length_append, List.length_dropLast,
          List.length_dropLast]
        omega

/-! ### C3 -/

/-- C3: `douglasPeucker` is monotone in its tolerance — for a fixed path
and non-negative tolerances `e1 ≤ e2`, lowering the tolerance never
shrinks the output. -/
theorem dp_monotone_in_tolerance (path : List Point2) (e1 e2 : ℚ)
    (_h1 : 0 ≤ e1) (_h2 : 0 ≤ e2) (h12 : e1 ≤ e2) :
    (douglasPeucker path e2).length ≤ (douglasPeucker path e1).length :=
  dp_mono_aux path.length path e1 e2 (le_refl _) h12

/-- C3 witness: the theorem applied at a concrete path and the tolerance
pair `0 ≤ 2`. -/
theorem dp_monotone_in_tolerance_witness :
    (douglasPeucker [⟨0, 0⟩, ⟨1, 1⟩, ⟨2, 0⟩] 2).length ≤
      (douglasPeucker [⟨0, 0⟩, ⟨1, 1⟩, ⟨2, 0⟩] 0).length :=
  dp_monotone_in_tolerance [⟨0, 0⟩, ⟨1, 1⟩, ⟨2, 0⟩] 0 2 (by norm_num)
    (by norm_num) (by norm_num)

theorem perpendicularDistance_eq (p s e : Point2) :
    perpendicularDistance p s e =
      if perpDen2 s e = 0 then
        (if perpNum p s e = 0 then .nan else .inf)
      else .fin (perpNum p s e) := rfl

theorem perpNum_nonneg (p s e : Point2) : 0 ≤ perpNum p s e := abs_nonneg _

theorem perpNum_start (s e : Point2) : perpNum s s e = 0 := by
  unfold perpNum
  rw [abs_eq_zero]
  ring

theorem perpNum_end (s e : Point2) : perpNum e s e = 0 := by
  unfold perpNum
  rw [abs_eq_zero]
  ring

theorem low_lt_max {s e p0 pm : Point2} {epsilon : ℚ} (heps : 0 ≤ epsilon)
    (h0 : perpNum p0 s e = 0)
    (hm : perpendicularDistance pm s e ≠ .nan)
    (hgt : (perpendicularDistance pm s e).toMax.gtEps (perpDen2 s e) epsilon
      = true) :
    (perpendicularDistance p0 s e).toMax.toW <
      (perpendicularDistance pm s e).toMax.toW := by
  by_cases hden : perpDen2 s e = 0
  · have hp0 : perpendicularDistance p0 s e = .nan := by
      rw [perpendicularDistance_eq, if_pos hden, if_pos h0]
    by_cases hnm : perpNum pm s e = 0
    · exfalso
      apply hm
      rw [perpendicularDistance_eq, if_pos hden, if_pos hnm]
    · have hpm : perpendicularDistance pm s e = .inf := by
        rw [perpendicularDistance_eq, if_pos hden, if_neg hnm]
      rw [hp0, hpm]
      simp [PerpDist.toMax, MaxD.toW, WithBot.bot_lt_coe]
  · have hp0 : perpendicularDistance p0 s e = .fin 0 := by
      rw [perpendicularDistance_eq, if_neg hden, h0]
    have hpm : perpendicularDistance pm s e = .fin (perpNum pm s e) := by
      rw [perpendicularDistance_eq, if_neg hden]
    rw [hp0, hpm]
    rw [hpm] at hgt
    have hd2 : 0 < perpDen2 s e :=
      lt_of_le_of_ne (perpDen2_nonneg s e) (Ne.symm hden)
    simp only [PerpDist.toMax, MaxD.gtEps] at hgt
    rw [if_neg (not_lt.mpr heps)] at hgt
    simp only [decide_eq_true_eq] at hgt
    have hnum : 0 < perpNum pm s e := by
      rcases lt_or_eq_of_le (perpNum_nonneg pm s e) with h | h
      · exact h
      · exfalso
        rw [← h] at hgt
        nlinarith
    simp only [PerpDist.toMax, MaxD.toW, WithBot.coe_lt_coe, WithTop.coe_lt_coe]
    exact hnum

theorem range'_split (a b : ℕ) (h1 : 1 ≤ a) (h2 : a ≤ b) :
    List.range' 1 b =
      List.range' 1 (a - 1) ++ a :: List.range' (a + 1) (b - a) := by
  have hb : b = ((b - a) + 1) + (a - 1) := by omega
  nth_rewrite 1 [hb]
  rw [← List.range'_append 1 (a - 1) ((b - a) + 1) 1]
  have h1m : 1 + 1 * (a - 1) = a := by omega
  rw [h1m, List.range'_succ]

theorem ffFold_split_fired (dist : ℕ → PerpDist) (is1 is2 : List ℕ) (p : ℕ)
    (hne1 : ∀ j ∈ is1, j ≠ p) (hne2 : ∀ j ∈ is2, j ≠ p)
    (h : (List.foldl (ffStep dist) (.negOne, none) (is1 ++ p :: is2)).2 =
      some p) :
    ∀ j ∈ is1, (dist j).toMax.toW < (dist p).toMax.toW := by
  intro j hj
  rw [List.foldl_append, List.foldl_cons] at h
  by_cases hfire :
      (dist p).gtMax (List.foldl (ffStep dist) (.negOne, none) is1).1 = true
  · exact lt_of_le_of_lt (ffFold_bound dist is1 _ j hj)
      ((gtMax_iff _ _).mp hfire).2
  · exfalso
    have hstep : ffStep dist (List.foldl (ffStep dist) (.negOne, none) is1) p =
        List.foldl (ffStep dist) (.negOne, none) is1 := by
      show (if (dist p).gtMax (List.foldl (ffStep dist)
            (MaxD.negOne, none) is1).1 = true
          then ((dist p).toMax, some p)
          else List.foldl (ffStep dist) (MaxD.negOne, none) is1) = _
      rw [if_neg hfire]
    rw [hstep] at h
    rcases ffFold_provenance dist is2
        (List.foldl (ffStep dist) (.negOne, none) is1) with hc | ⟨j2, hj2, hf2, _⟩
    · rw [hc] at h
      rcases ffFold_provenance dist is1 (.negOne, none) with hc1 | ⟨j1, hj1, hf1, _⟩
      · rw [hc1] at h
        simp at h
      · rw [hf1] at h
        simp only at h
        exact hne1 j1 hj1 (Option.some.inj h)
    · rw [hf2] at h
      simp only at h
      exact hne2 j2 hj2 (Option.some.inj h)

theorem findFurthestPoint_some_inv {path : List Point2} {epsilon : ℚ} {i : ℕ}
    (h : findFurthestPoint path epsilon = some i) :
    (List.range' 1 (path.length - 2)).foldl
        (ffStep (fun j => perpendicularDistance (path.getD j ⟨0, 0⟩)
          (path.headD ⟨0, 0⟩) (path.getLastD ⟨0, 0⟩))) (.negOne, none) =
      ((perpendicularDistance (path.getD i ⟨0, 0⟩) (path.headD ⟨0, 0⟩)
        (path.getLastD ⟨0, 0⟩)).toMax, some i) ∧
    perpendicularDistance (path.getD i ⟨0, 0⟩) (path.headD ⟨0, 0⟩)
      (path.getLastD ⟨0, 0⟩) ≠ .nan ∧
    (perpendicularDistance (path.getD i ⟨0, 0⟩) (path.headD ⟨0, 0⟩)
      (path.getLastD ⟨0, 0⟩)).toMax.gtEps
      (perpDen2 (path.headD ⟨0, 0⟩) (path.getLastD ⟨0, 0⟩)) epsilon = true := by
  simp only [findFurthestPoint] at h
  split at h
  · next hcond =>
    rcases ffFold_provenance
        (fun j => perpendicularDistance (path.getD j ⟨0, 0⟩)
          (path.headD ⟨0, 0⟩) (path.getLastD ⟨0, 0⟩))
        (List.range' 1 (path.length - 2)) (.negOne, none) with hc | ⟨j, hj, hfold, hnan⟩
    · rw [hc] at h
      exact absurd h (by simp)
    · rw [hfold] at h
      have hji : j = i := by simpa using h
      subst hji
      rw [hfold] at hcond
      exact ⟨hfold, hnan, hcond⟩
  · exact absurd h (by simp)

theorem getD_zero_eq_headD {α : Type} (l : List α) (d : α) :
    l.getD 0 d = l.headD d := by
  cases l <;> rfl

theorem getD_last_eq_getLastD {α : Type} (l : List α) (d : α) :
    l.getD (l.length - 1) d = l.getLastD d := by
  rw [List.getD_eq_getElem?_getD, List.getLastD_eq_getLast?,
    List.getLast?_eq_getElem?]

theorem getLast?_take_of_lt {α : Type} (l : List α) (i : ℕ) (h : i < l.length) :
    (l.take (i + 1)).getLast? = l[i]? := by
  rw [List.getLast?_take, if_neg (by omega)]
  simp only [Nat.add_sub_cancel]
  rw [List.getElem?_eq_getElem h]
  exact Option.or_some

theorem ffp_second_pass
    (path : List Point2) (epsilon : ℚ) (i : ℕ) (heps : 0 ≤ epsilon)
    (hffp : findFurthestPoint path epsilon = some i)
    (L R : List Point2)
    (hLlen : 2 ≤ L.length) (hLlen2 : L.length ≤ i + 1)
    (hRlen : 2 ≤ R.length) (hRlen2 : R.length ≤ path.length - i)
    (hLhead : L.head? = path.head?)
    (hLlast : L.getLast? = path[i]?)
    (hRhead : R.head? = path[i]?)
    (hRlast : R.getLast? = path.getLast?)
    (hLsub : L <+ path.take (i + 1))
    (hRsub : R <+ path.drop i) :
    findFurthestPoint (L.dropLast ++ R) epsilon = some (L.length - 1) := by
  obtain ⟨hi1, hi2⟩ := findFurthestPoint_some hffp
  have hilen : i < path.length := by omega
  have hpig : path[i]? = some (path.getD i ⟨0, 0⟩) := by
    rw [List.getD_eq_getElem?_getD, List.getElem?_eq_getElem hilen]
    rfl
  obtain ⟨hfold, hnan, hgt⟩ := findFurthestPoint_some_inv hffp
  have hLd_len : L.dropLast.length = L.length - 1 := List.length_dropLast _
  have hLd_ne : L.dropLast ≠ [] := by
    intro hc
    rw [hc] at hLd_len
    simp at hLd_len
    omega
  have hR_ne : R ≠ [] := by
    intro hc
    rw [hc] at hRlen
    simp at hRlen
  -- the split point and its distance
  have hqpos : (L.dropLast ++ R)[L.length - 1]? = some (path.getD i ⟨0, 0⟩) := by
    rw [List.getElem?_append_right (by omega : L.dropLast.length ≤ L.length - 1)]
    have h00 : L.length - 1 - L.dropLast.length = 0 := by omega
    rw [h00, ← List.head?_eq_getElem?, hRhead, hpig]
  have hdq : (L.dropLast ++ R).getD (L.length - 1) ⟨0, 0⟩ = path.getD i ⟨0, 0⟩ := by
    rw [List.getD_eq_getElem?_getD, hqpos]
    rfl
  -- pre-split strict bound on the original fold
  have hpre : ∀ k ∈ List.range' 1 (i - 1),
      (perpendicularDistance (path.getD k ⟨0, 0⟩) (path.headD ⟨0, 0⟩)
        (path.getLastD ⟨0, 0⟩)).toMax.toW <
      (perpendicularDistance (path.getD i ⟨0, 0⟩) (path.headD ⟨0, 0⟩)
        (path.getLastD ⟨0, 0⟩)).toMax.toW := by
    refine ffFold_split_fired
      (fun j => perpendicularDistance (path.getD j ⟨0, 0⟩)
        (path.headD ⟨0, 0⟩) (path.getLastD ⟨0, 0⟩))
      (List.range' 1 (i - 1)) (List.range' (i + 1) (path.length - 2 - i)) i
      ?_ ?_ ?_
    · intro j hj
      have := List.mem_range'_1.mp hj
      omega
    · intro j hj
      have := List.mem_range'_1.mp hj
      omega
    · rw [← range'_split i (path.length - 2) (by omega) (by omega), hfold]
  -- no element of the original fold exceeds the maximum
  have hpost : ∀ m ∈ List.range' 1 (path.length - 2),
      ¬ (perpendicularDistance (path.getD i ⟨0, 0⟩) (path.headD ⟨0, 0⟩)
          (path.getLastD ⟨0, 0⟩)).toMax.toW <
        (perpendicularDistance (path.getD m ⟨0, 0⟩) (path.headD ⟨0, 0⟩)
          (path.getLastD ⟨0, 0⟩)).toMax.toW := by
    intro m hm
    have hb := ffFold_bound
      (fun j => perpendicularDistance (path.getD j ⟨0, 0⟩)
        (path.headD ⟨0, 0⟩) (path.getLastD ⟨0, 0⟩))
      (List.range' 1 (path.length - 2)) (.negOne, none) m hm
    rw [hfold] at hb
    exact not_lt.mpr hb
  -- the interior point is not duplicated before position i
  have hnotin : path.getD i ⟨0, 0⟩ ∉ path.take i := by
    intro hmem3
    obtain ⟨k, hk, hkq⟩ := List.mem_iff_getElem.mp hmem3
    have hki : k < i := by
      rw [List.length_take] at hk
      omega
    rw [List.getElem_take] at hkq
    have hdeq : path.getD k ⟨0, 0⟩ = path.getD i ⟨0, 0⟩ := by
      rw [List.getD_eq_getElem?_getD, List.getElem?_eq_getElem (by omega : k < path.length)]
      simpa using hkq
    rcases Nat.eq_zero_or_pos k with hk0 | hk0
    · subst hk0
      have hs : path.headD ⟨0, 0⟩ = path.getD i ⟨0, 0⟩ := by
        rw [← getD_zero_eq_headD]
        exact hdeq
      have h0 : perpNum (path.getD i ⟨0, 0⟩) (path.headD ⟨0, 0⟩)
          (path.getLastD ⟨0, 0⟩) = 0 := by
        rw [← hs]
        exact perpNum_start _ _
      exact absurd (low_lt_max heps h0 hnan hgt) (lt_irrefl _)
    · have hmem' : k ∈ List.range' 1 (i - 1) := List.mem_range'_1.mpr ⟨hk0, by omega⟩
      have := hpre k hmem'
      rw [hdeq] at this
      exact absurd this (lt_irrefl _)
  -- count of the split point: exactly once in take (i+1), so never inside dropLast L
  have hsplit_take : path.take (i + 1) = path.take i ++ [path.getD i ⟨0, 0⟩] := by
    rw [List.take_succ, hpig]
    rfl
  have hLd_not : path.getD i ⟨0, 0⟩ ∉ L.dropLast := by
    intro hmem4
    have hL_decomp : L.dropLast ++ [path.getD i ⟨0, 0⟩] = L := by
      refine List.dropLast_append_getLast? _ ?_
      rw [hLlast, hpig]
      rfl
    have hcL : 2 ≤ L.count (path.getD i ⟨0, 0⟩) := by
      rw [← hL_decomp, List.count_append]
      have h1 : 1 ≤ L.dropLast.count (path.getD i ⟨0, 0⟩) :=
        List.count_pos_iff.mpr hmem4
      have h2 : List.count (path.getD i ⟨0, 0⟩) [path.getD i ⟨0, 0⟩] = 1 := by
        simp
      omega
    have hcPl : (path.take (i + 1)).count (path.getD i ⟨0, 0⟩) = 1 := by
      rw [hsplit_take, List.count_append]
      rw [List.count_eq_zero.mpr hnotin]
      simp
    have := hLsub.count_le (path.getD i ⟨0, 0⟩)
    omega
  -- strict bound for interior elements of Q before the split position
  have hQpre : ∀ j ∈ List.range' 1 (L.length - 1 - 1),
      (perpendicularDistance ((L.dropLast ++ R).getD j ⟨0, 0⟩)
        (path.headD ⟨0, 0⟩) (path.getLastD ⟨0, 0⟩)).toMax.toW <
      (perpendicularDistance (path.getD i ⟨0, 0⟩) (path.headD ⟨0, 0⟩)
        (path.getLastD ⟨0, 0⟩)).toMax.toW := by
    intro j hj
    obtain ⟨hj1, hj2⟩ := List.mem_range'_1.mp hj
    have hjlt : j < L.dropLast.length := by omega
    have hQj : (L.dropLast ++ R).getD j ⟨0, 0⟩ = L.dropLast.getD j ⟨0, 0⟩ := by
      rw [List.getD_eq_getElem?_getD, List.getD_eq_getElem?_getD,
        List.getElem?_append_left hjlt]
    have hmemLd : L.dropLast.getD j ⟨0, 0⟩ ∈ L.dropLast := by
      rw [List.getD_eq_getElem?_getD, List.getElem?_eq_getElem hjlt]
      exact List.getElem_mem _
    have hmemPl : L.dropLast.getD j ⟨0, 0⟩ ∈ path.take (i + 1) :=
      hLsub.subset ((List.dropLast_sublist L).subset hmemLd)
    obtain ⟨k, hk, hkq⟩ := List.mem_iff_getElem.mp hmemPl
    have hki : k < i + 1 := by
      rw [List.length_take] at hk
      omega
    rw [List.getElem_take] at hkq
    have hkd : path.getD k ⟨0, 0⟩ = L.dropLast.getD j ⟨0, 0⟩ := by
      rw [List.getD_eq_getElem?_getD, List.getElem?_eq_getElem (by omega : k < path.length)]
      simpa using hkq
    have hkne : k ≠ i := by
      intro hc
      subst hc
      rw [← hkd] at hmemLd
      exact hLd_not hmemLd
    rw [hQj, ← hkd]
    rcases Nat.eq_zero_or_pos k with hk0 | hk0
    · subst hk0
      rw [getD_zero_eq_headD]
      exact low_lt_max heps (perpNum_start _ _) hnan hgt
    · exact hpre k (List.mem_range'_1.mpr ⟨hk0, by omega⟩)
  have hQpost : ∀ j ∈ List.range' (L.length - 1 + 1)
      (L.length - 1 + R.length - 2 - (L.length - 1)),
      ¬ (perpendicularDistance (path.getD i ⟨0, 0⟩) (path.headD ⟨0, 0⟩)
          (path.getLastD ⟨0, 0⟩)).toMax.toW <
        (perpendicularDistance ((L.dropLast ++ R).getD j ⟨0, 0⟩)
          (path.headD ⟨0, 0⟩) (path.getLastD ⟨0, 0⟩)).toMax.toW := by
    intro j hj
    obtain ⟨hj1, hj2⟩ := List.mem_range'_1.mp hj
    have hLd_le : L.dropLast.length ≤ j := by omega
    have hQj : (L.dropLast ++ R).getD j ⟨0, 0⟩ =
        R.getD (j - L.dropLast.length) ⟨0, 0⟩ := by
      rw [List.getD_eq_getElem?_getD, List.getD_eq_getElem?_getD,
        List.getElem?_append_right hLd_le]
    have hidx : j - L.dropLast.length < R.length := by omega
    have hmemR : R.getD (j - L.dropLast.length) ⟨0, 0⟩ ∈ R := by
      rw [List.getD_eq_getElem?_getD, List.getElem?_eq_getElem hidx]
      exact List.getElem_mem _
    have hmemPr : R.getD (j - L.dropLast.length) ⟨0, 0⟩ ∈ path.drop i :=
      hRsub.subset hmemR
    obtain ⟨k, hk, hkq⟩ := List.mem_iff_getElem.mp hmemPr
    rw [List.length_drop] at hk
    rw [List.getElem_drop] at hkq
    have hkd : path.getD (i + k) ⟨0, 0⟩ =
        R.getD (j - L.dropLast.length) ⟨0, 0⟩ := by
      rw [List.getD_eq_getElem?_getD,
        List.getElem?_eq_getElem (by omega : i + k < path.length)]
      simpa using hkq
    rw [hQj, ← hkd]
    rcases Nat.lt_or_ge (i + k) (path.length - 1) with hm | hm
    · exact hpost (i + k) (List.mem_range'_1.mpr ⟨by omega, by omega⟩)
    · have hke : i + k = path.length - 1 := by omega
      rw [hke, getD_last_eq_getLastD]
      exact lt_asymm (low_lt_max heps (perpNum_end _ _) hnan hgt)
  simp only [findFurthestPoint]
  have hQhead : (L.dropLast ++ R).headD ⟨0, 0⟩ = path.headD ⟨0, 0⟩ := by
    rw [List.headD_eq_head?_getD, List.headD_eq_head?_getD,
      List.head?_append_of_ne_nil _ hLd_ne, head?_dropLast _ hLlen, hLhead]
  have hQlast : (L.dropLast ++ R).getLastD ⟨0, 0⟩ = path.getLastD ⟨0, 0⟩ := by
    rw [List.getLastD_eq_getLast?, List.getLastD_eq_getLast?,
      List.getLast?_append_of_ne_nil _ hR_ne, hRlast]
  rw [hQhead, hQlast]
  have hQlen : (L.dropLast ++ R).length = L.length - 1 + R.length := by
    rw [List.length_append, hLd_len]
  rw [hQlen]
  rw [range'_split (L.length - 1) (L.length - 1 + R.length - 2)
    (by omega) (by omega)]
  have hp2 : perpendicularDistance
      ((L.dropLast ++ R).getD (L.length - 1) ⟨0, 0⟩)
      (path.headD ⟨0, 0⟩) (path.getLastD ⟨0, 0⟩) ≠ .nan := by
    rw [hdq]
    exact hnan
  have hQpre2 : ∀ j ∈ List.range' 1 (L.length - 1 - 1),
      (perpendicularDistance ((L.dropLast ++ R).getD j ⟨0, 0⟩)
        (path.headD ⟨0, 0⟩) (path.getLastD ⟨0, 0⟩)).toMax.toW <
      (perpendicularDistance ((L.dropLast ++ R).getD (L.length - 1) ⟨0, 0⟩)
        (path.headD ⟨0, 0⟩) (path.getLastD ⟨0, 0⟩)).toMax.toW := by
    rw [hdq]
    exact hQpre
  have hQpost2 : ∀ j ∈ List.range' (L.length - 1 + 1)
      (L.length - 1 + R.length - 2 - (L.length - 1)),
      ¬ (perpendicularDistance ((L.dropLast ++ R).getD (L.length - 1) ⟨0, 0⟩)
          (path.headD ⟨0, 0⟩) (path.getLastD ⟨0, 0⟩)).toMax.toW <
        (perpendicularDistance ((L.dropLast ++ R).getD j ⟨0, 0⟩)
          (path.headD ⟨0, 0⟩) (path.getLastD ⟨0, 0⟩)).toMax.toW := by
    rw [hdq]
    exact hQpost
  have hmain := ffFold_first_max
    (fun j => perpendicularDistance ((L.dropLast ++ R).getD j ⟨0, 0⟩)
      (path.headD ⟨0, 0⟩) (path.getLastD ⟨0, 0⟩))
    (List.range' 1 (L.length - 1 - 1))
    (List.range' (L.length - 1 + 1) (L.length - 1 + R.length - 2 - (L.length - 1)))
    (L.length - 1) hp2 hQpre2 hQpost2
  rw [hmain]
  dsimp only
  rw [hdq, if_pos hgt]

theorem dp_idem_aux : ∀ (n : ℕ) (path : List Point2) (epsilon : ℚ),
    path.length ≤ n → 0 ≤ epsilon →
    douglasPeucker (douglasPeucker path epsilon) epsilon =
      douglasPeucker path epsilon := by
  intro n
  induction n with
  | zero =>
    intro path epsilon hlen heps
    rw [douglasPeucker_short path _ (by omega)]
    exact douglasPeucker_short path _ (by omega)
  | succ n ih =>
    intro path epsilon hlen heps
    by_cases h3 : path.length < 3
    · rw [douglasPeucker_short path _ h3]
      exact douglasPeucker_short path _ h3
    · cases hffp : findFurthestPoint path epsilon with
      | none =>
        rw [douglasPeucker_unfold path, if_neg h3, hffp]
        dsimp only
        exact douglasPeucker_short _ _ (by simp)
      | some i =>
        have hib := findFurthestPoint_some hffp
        have hilen : i < path.length := by omega
        have htl : (path.take (i + 1)).length = i + 1 := by
          rw [List.length_take]; omega
        have hdl : (path.drop i).length = path.length - i := List.length_drop _ _
        have hpig : path[i]? = some (path.getD i ⟨0, 0⟩) := by
          rw [List.getD_eq_getElem?_getD, List.getElem?_eq_getElem hilen]
          rfl
        obtain ⟨SL1, SL2, SL3, SL4, SL5⟩ :=
          dp_struct (path.take (i + 1)).length (path.take (i + 1)) epsilon (le_refl _)
        obtain ⟨SR1, SR2, SR3, SR4, SR5⟩ :=
          dp_struct (path.drop i).length (path.drop i) epsilon (le_refl _)
        rw [htl] at SL1
        rw [hdl] at SR1
        have hL2 : 2 ≤ (douglasPeucker (path.take (i + 1)) epsilon).length :=
          SL2 (by omega)
        have hR2 : 2 ≤ (douglasPeucker (path.drop i) epsilon).length :=
          SR2 (by omega)
        have hLhead : (douglasPeucker (path.take (i + 1)) epsilon).head? =
            path.head? := by
          rw [SL3, List.head?_take, if_neg (by omega)]
        have hLlast : (douglasPeucker (path.take (i + 1)) epsilon).getLast? =
            path[i]? := by
          rw [SL4, getLast?_take_of_lt path i hilen]
        have hRhead : (douglasPeucker (path.drop i) epsilon).head? =
            path[i]? := by
          rw [SR3, List.head?_drop]
        have hRlast : (douglasPeucker (path.drop i) epsilon).getLast? =
            path.getLast? := by
          rw [SR4, List.getLast?_drop, if_neg (by omega)]
        have h2nd := ffp_second_pass path epsilon i heps hffp
          (douglasPeucker (path.take (i + 1)) epsilon)
          (douglasPeucker (path.drop i) epsilon)
          hL2 SL1 hR2 SR1 hLhead hLlast hRhead hRlast SL5 SR5
        have hQtakeL : ((douglasPeucker (path.take (i + 1)) epsilon).dropLast ++
            douglasPeucker (path.drop i) epsilon).take
              ((douglasPeucker (path.take (i + 1)) epsilon).length - 1 + 1) =
            douglasPeucker (path.take (i + 1)) epsilon := by
          rw [show (douglasPeucker (path.take (i + 1)) epsilon).length - 1 =
              (douglasPeucker (path.take (i + 1)) epsilon).dropLast.length from
                (List.length_dropLast _).symm]
          rw [List.take_append, List.take_one, hRhead, hpig]
          exact List.dropLast_append_getLast? _ (by rw [hLlast, hpig]; rfl)
        have hQdropR : ((douglasPeucker (path.take (i + 1)) epsilon).dropLast ++
            douglasPeucker (path.drop i) epsilon).drop
              ((douglasPeucker (path.take (i + 1)) epsilon).length - 1) =
            douglasPeucker (path.drop i) epsilon := by
          rw [show (douglasPeucker (path.take (i + 1)) epsilon).length - 1 =
              (douglasPeucker (path.take (i + 1)) epsilon).dropLast.length from
                (List.length_dropLast _).symm]
          exact List.drop_left _ _
        have hQ3 : ¬ ((douglasPeucker (path.take (i + 1)) epsilon).dropLast ++
            douglasPeucker (path.drop i) epsilon).length < 3 := by
          rw [List.length_append, List.length_dropLast]
          omega
        rw [douglasPeucker_unfold path, if_neg h3, hffp]
        dsimp only
        rw [douglasPeucker_unfold, if_neg hQ3, h2nd]
        dsimp only
        rw [hQtakeL, hQdropR]
        rw [ih (path.take (i + 1)) epsilon (by omega) heps,
          ih (path.drop i) epsilon (by omega) heps]

/-! ### C4 -/

/-- C4: `douglasPeucker` is idempotent at every fixed non-negative
tolerance — running the simplifier again on its own output changes
nothing. -/
theorem dp_idempotent (path : List Point2) (epsilon : ℚ) (heps : 0 ≤ epsilon) :
    douglasPeucker (douglasPeucker path epsilon) epsilon =
      douglasPeucker path epsilon :=
  dp_idem_aux path.length path epsilon (le_refl _) heps

/-- C4 witness: the theorem applied at a concrete 5-point path with the
default tolerance `1/2`. -/
theorem dp_idempotent_witness :
    douglasPeucker
        (douglasPeucker [⟨0, 0⟩, ⟨1, 0⟩, ⟨2, 1⟩, ⟨3, 0⟩, ⟨4, 0⟩] (1/2)) (1/2) =
      douglasPeucker [⟨0, 0⟩, ⟨1, 0⟩, ⟨2, 1⟩, ⟨3, 0⟩, ⟨4, 0⟩] (1/2) :=
  dp_idempotent [⟨0, 0⟩, ⟨1, 0⟩, ⟨2, 1⟩, ⟨3, 0⟩, ⟨4, 0⟩] (1/2) (by norm_num)

/-! ### Helper lemmas: PriorityQueue -/

theorem listSwap_length {α : Type} (l : List α) (i j : ℕ) :
    (listSwap l i j).length = l.length := by
  unfold listSwap
  split
  · simp
  · rfl

theorem swap_head_perm {α : Type} :
    ∀ (xs : List α) (k : ℕ) (h : k < xs.length) (x : α),
      xs[k] :: xs.set k x ~ x :: xs := by
  intro xs
  induction xs with
  | nil => intro k h; exact absurd h (by simp)
  | cons y ys ih =>
    intro k h x
    cases k with
    | zero => exact List.Perm.swap x y ys
    | succ k =>
      have hk : k < ys.length := by simpa using h
      calc (y :: ys)[k + 1] :: (y :: ys).set (k + 1) x
          = ys[k] :: y :: ys.set k x := by simp
        _ ~ y :: ys[k] :: ys.set k x := List.Perm.swap _ _ _
        _ ~ y :: (x :: ys) := List.Perm.cons y (ih k hk x)
        _ ~ x :: y :: ys := List.Perm.swap _ _ _

theorem perm_set_set {α : Type} :
    ∀ (l : List α) (i j : ℕ) (hi : i < l.length) (hj : j < l.length),
      (l.set i l[j]).set j l[i] ~ l := by
  intro l
  induction l with
  | nil => intro i j hi; exact absurd hi (by simp)
  | cons a t ih =>
    intro i j hi hj
    cases i with
    | zero =>
      cases j with
      | zero => simp
      | succ j =>
        have hj' : j < t.length := by simpa using hj
        have h1 : ((a :: t).set 0 (a :: t)[j + 1]).set (j + 1) (a :: t)[0] =
            t[j] :: t.set j a := by simp
        rw [h1]
        exact swap_head_perm t j hj' a
    | succ i =>
      cases j with
      | zero =>
        have hi' : i < t.length := by simpa using hi
        have h1 : ((a :: t).set (i + 1) (a :: t)[0]).set 0 (a :: t)[i + 1] =
            t[i] :: t.set i a := by simp
        rw [h1]
        exact swap_head_perm t i hi' a
      | succ j =>
        have hi' : i < t.length := by simpa using hi
        have hj' : j < t.length := by simpa using hj
        have h1 : ((a :: t).set (i + 1) (a :: t)[j + 1]).set (j + 1) (a :: t)[i + 1] =
            a :: (t.set i t[j]).set j t[i] := by simp
        rw [h1]
        exact List.Perm.cons a (ih i j hi' hj')

theorem listSwap_perm {α : Type} (l : List α) (i j : ℕ) : listSwap l i j ~ l := by
  unfold listSwap
  split
  · next a b ha hb =>
    obtain ⟨hi, hia⟩ := List.getElem?_eq_some.mp ha
    obtain ⟨hj, hjb⟩ := List.getElem?_eq_some.mp hb
    rw [← hia, ← hjb]
    exact perm_set_set l i j hi hj
  · exact List.Perm.refl _

theorem prioD_listSwap {T : Type} (l : List (T × ℚ)) (i j k : ℕ)
    (hi : i < l.length) (hj : j < l.length) :
    prioD (listSwap l i j) k =
      if k = j then prioD l i else if k = i then prioD l j else prioD l k := by
  unfold listSwap
  rw [List.getElem?_eq_getElem hi, List.getElem?_eq_getElem hj]
  dsimp only
  unfold prioD
  have houter : ((l.set i l[j]).set j l[i])[k]? =
      if j = k then some l[i] else (l.set i l[j])[k]? := by
    rw [List.getElem?_set]
    by_cases hjk : j = k
    · rw [if_pos hjk, if_pos hjk, if_pos (by simpa using hj)]
    · rw [if_neg hjk, if_neg hjk]
  have hinner : (l.set i l[j])[k]? = if i = k then some l[j] else l[k]? := by
    rw [List.getElem?_set]
    by_cases hik : i = k
    · rw [if_pos hik, if_pos hik, if_pos hi]
    · rw [if_neg hik, if_neg hik]
  rw [houter, hinner]
  by_cases hkj : k = j
  · subst hkj
    rw [if_pos rfl, if_pos rfl, List.getElem?_eq_getElem hi]
  · rw [if_neg (fun hc => hkj hc.symm), if_neg hkj]
    by_cases hki : k = i
    · subst hki
      rw [if_pos rfl, if_pos rfl, List.getElem?_eq_getElem hj]
    · rw [if_neg (fun hc => hki hc.symm), if_neg hki]

theorem defaultCompare_nonneg_iff (a b : ℚ) : 0 ≤ defaultCompare a b ↔ b ≤ a := by
  unfold defaultCompare
  constructor <;> intro h <;> linarith

theorem prioD_append_left {T : Type} (l : List (T × ℚ)) (x : T × ℚ) (k : ℕ)
    (hk : k < l.length) : prioD (l ++ [x]) k = prioD l k := by
  unfold prioD
  rw [List.getElem?_append_left hk]

theorem heapifyUpF_isHeap {T : Type} :
    ∀ (fuel : ℕ) (items : List (T × ℚ)) (j : ℕ),
    j ≤ fuel → j < items.length →
    (∀ k, 0 < k → k < items.length → k ≠ j →
      prioD items ((k - 1) / 2) ≤ prioD items k) →
    (0 < j → ∀ c, 0 < c → c < items.length → (c - 1) / 2 = j →
      prioD items ((j - 1) / 2) ≤ prioD items c) →
    IsHeap (heapifyUpF defaultCompare fuel items j) := by
  intro fuel
  induction fuel with
  | zero =>
    intro items j hjf hjl hA hB
    have hj0 : j = 0 := by omega
    subst hj0
    intro k hk0 hkl
    exact hA k hk0 (by simpa using hkl) (by omega)
  | succ fuel ih =>
    intro items j hjf hjl hA hB
    show IsHeap (if j = 0 then items else _)
    by_cases hj0 : j = 0
    · rw [if_pos hj0]
      subst hj0
      intro k hk0 hkl
      exact hA k hk0 hkl (by omega)
    · rw [if_neg hj0]
      dsimp only
      by_cases hcmp : 0 ≤ defaultCompare (prioD items j) (prioD items ((j - 1) / 2))
      · rw [if_pos hcmp]
        have hrel : prioD items ((j - 1) / 2) ≤ prioD items j :=
          (defaultCompare_nonneg_iff _ _).mp hcmp
        intro k hk0 hkl
        by_cases hkj : k = j
        · subst hkj
          exact hrel
        · exact hA k hk0 hkl hkj
      · rw [if_neg hcmp]
        have hswap : prioD items j < prioD items ((j - 1) / 2) := by
          unfold defaultCompare at hcmp
          push_neg at hcmp
          linarith
        have hpl : (j - 1) / 2 < items.length := by
          have : (j - 1) / 2 < j := by omega
          omega
        have hlen : (listSwap items j ((j - 1) / 2)).length = items.length :=
          listSwap_length _ _ _
        have hprio : ∀ k, prioD (listSwap items j ((j - 1) / 2)) k =
            if k = (j - 1) / 2 then prioD items j
            else if k = j then prioD items ((j - 1) / 2) else prioD items k :=
          fun k => prioD_listSwap items j ((j - 1) / 2) k hjl hpl
        refine ih (listSwap items j ((j - 1) / 2)) ((j - 1) / 2)
          (by omega) (by omega) ?_ ?_
        · -- the heap relation holds away from the new special index
          intro k hk0 hkl hkp
          rw [hlen] at hkl
          rw [hprio, hprio]
          by_cases hkj : k = j
          · -- the swapped-down element sits below the moved-up one
            subst hkj
            rw [if_pos rfl, if_neg hkp, if_pos rfl]
            exact le_of_lt hswap
          · by_cases hparp : (k - 1) / 2 = (j - 1) / 2
            · -- sibling of the sifted element: chain through the old parent
              rw [if_pos hparp, if_neg hkp, if_neg hkj]
              have hrel := hA k hk0 hkl hkj
              rw [hparp] at hrel
              exact le_trans (le_of_lt hswap) hrel
            · by_cases hparj : (k - 1) / 2 = j
              · -- child of the sifted element: use the B invariant
                rw [if_neg hparp, if_pos hparj, if_neg hkp, if_neg hkj]
                exact hB (by omega) k hk0 hkl hparj
              · rw [if_neg hparp, if_neg hparj, if_neg hkp, if_neg hkj]
                exact hA k hk0 hkl hkj
        · -- children of the new special index sit above its parent
          intro hp0 c hc0 hcl hcp
          rw [hlen] at hcl
          rw [hprio, hprio]
          have hgp : ((j - 1) / 2 - 1) / 2 ≠ (j - 1) / 2 := by omega
          have hgpj : ((j - 1) / 2 - 1) / 2 ≠ j := by omega
          rw [if_neg hgp, if_neg hgpj]
          have hparent_rel : prioD items (((j - 1) / 2 - 1) / 2) ≤
              prioD items ((j - 1) / 2) :=
            hA ((j - 1) / 2) hp0 hpl (by omega)
          by_cases hcj : c = j
          · subst hcj
            rw [if_neg (by omega : ¬ c = (c - 1) / 2), if_pos rfl]
            exact hparent_rel
          · have hcpar : c ≠ (j - 1) / 2 := by omega
            rw [if_neg hcpar, if_neg hcj]
            have hrel := hA c hc0 hcl hcj
            rw [hcp] at hrel
            exact le_trans hparent_rel hrel

theorem defaultCompare_neg_iff (a b : ℚ) : defaultCompare a b < 0 ↔ a < b := by
  unfold defaultCompare
  constructor <;> intro h <;> linarith

theorem heapifyDown_swap_inv {T : Type} (items : List (T × ℚ)) (j s : ℕ)
    (hslen : s < items.length) (hs1 : j + 1 ≤ s) (hchild : (s - 1) / 2 = j)
    (hps : prioD items s < prioD items j)
    (hsib : ∀ c, 0 < c → c < items.length → (c - 1) / 2 = j → c ≠ s →
      prioD items s ≤ prioD items c)
    (hA : ∀ k, 0 < k → k < items.length → (k - 1) / 2 ≠ j →
      prioD items ((k - 1) / 2) ≤ prioD items k)
    (hB : 0 < j → ∀ c, c < items.length → (c - 1) / 2 = j →
      prioD items ((j - 1) / 2) ≤ prioD items c) :
    (∀ k, 0 < k → k < (listSwap items j s).length → (k - 1) / 2 ≠ s →
      prioD (listSwap items j s) ((k - 1) / 2) ≤ prioD (listSwap items j s) k) ∧
    (0 < s → ∀ c, c < (listSwap items j s).length → (c - 1) / 2 = s →
      prioD (listSwap items j s) ((s - 1) / 2) ≤ prioD (listSwap items j s) c) := by
  have hjlen : j < items.length := by omega
  have hlen := listSwap_length items j s
  have hprio := fun k => prioD_listSwap items j s k hjlen hslen
  constructor
  · intro k hk0 hkl hkps
    rw [hlen] at hkl
    rw [hprio, hprio]
    by_cases hks : k = s
    · subst hks
      rw [if_neg hkps, if_pos hchild, if_pos rfl]
      exact le_of_lt hps
    · rw [if_neg hks]
      by_cases hkj : k = j
      · subst hkj
        rw [if_neg (by omega : ¬ (k - 1) / 2 = s),
          if_neg (by omega : ¬ (k - 1) / 2 = k), if_pos rfl]
        exact hB hk0 s hslen hchild
      · rw [if_neg hkj]
        by_cases hpj : (k - 1) / 2 = j
        · rw [if_neg (by omega : ¬ (k - 1) / 2 = s), if_pos hpj]
          exact hsib k hk0 hkl hpj hks
        · rw [if_neg hkps, if_neg hpj]
          exact hA k hk0 hkl hpj
  · intro hs0 c hcl hcp
    rw [hlen] at hcl
    rw [hprio, hprio]
    have hcs : c ≠ s := by omega
    have hcj : c ≠ j := by omega
    rw [if_neg (by omega : ¬ (s - 1) / 2 = s), if_pos hchild,
      if_neg hcs, if_neg hcj]
    have hrel := hA c (by omega) hcl (by omega)
    rw [hcp] at hrel
    exact hrel

theorem heapifyDownF_isHeap {T : Type} :
    ∀ (fuel : ℕ) (items : List (T × ℚ)) (j : ℕ),
    items.length ≤ fuel + j →
    (∀ k, 0 < k → k < items.length → (k - 1) / 2 ≠ j →
      prioD items ((k - 1) / 2) ≤ prioD items k) →
    (0 < j → ∀ c, c < items.length → (c - 1) / 2 = j →
      prioD items ((j - 1) / 2) ≤ prioD items c) →
    IsHeap (heapifyDownF defaultCompare fuel items j) := by
  intro fuel
  induction fuel with
  | zero =>
    intro items j hfl hA hB
    intro k hk0 hkl
    show prioD items ((k - 1) / 2) ≤ prioD items k
    by_cases hpj : (k - 1) / 2 = j
    · exfalso
      have hkl2 : k < items.length := by simpa using hkl
      omega
    · exact hA k hk0 (by simpa using hkl) hpj
  | succ fuel ih =>
    intro items j hfl hA hB
    simp only [heapifyDownF]
    by_cases hg1 : 2 * j + 1 < items.length ∧
        defaultCompare (prioD items (2 * j + 1)) (prioD items j) < 0
    · rw [if_pos hg1]
      have hp1 : prioD items (2 * j + 1) < prioD items j :=
        (defaultCompare_neg_iff _ _).mp hg1.2
      by_cases hg2 : 2 * j + 1 + 1 < items.length ∧
          defaultCompare (prioD items (2 * j + 1 + 1))
            (prioD items (2 * j + 1)) < 0
      · rw [if_pos hg2, if_neg (by omega : ¬ 2 * j + 1 + 1 = j)]
        have hp2 : prioD items (2 * j + 1 + 1) < prioD items (2 * j + 1) :=
          (defaultCompare_neg_iff _ _).mp hg2.2
        have hsib : ∀ c, 0 < c → c < items.length → (c - 1) / 2 = j →
            c ≠ 2 * j + 1 + 1 →
            prioD items (2 * j + 1 + 1) ≤ prioD items c := by
          intro c hc0 hcl hcp hcs
          have hc : c = 2 * j + 1 := by omega
          subst hc
          exact le_of_lt hp2
        obtain ⟨hA2, hB2⟩ := heapifyDown_swap_inv items j (2 * j + 1 + 1)
          hg2.1 (by omega) (by omega) (lt_trans hp2 hp1) hsib hA hB
        exact ih (listSwap items j (2 * j + 1 + 1)) (2 * j + 1 + 1)
          (by rw [listSwap_length]; omega) hA2 hB2
      · rw [if_neg hg2, if_neg (by omega : ¬ 2 * j + 1 = j)]
        have hsib : ∀ c, 0 < c → c < items.length → (c - 1) / 2 = j →
            c ≠ 2 * j + 1 →
            prioD items (2 * j + 1) ≤ prioD items c := by
          intro c hc0 hcl hcp hcs
          have hc : c = 2 * j + 1 + 1 := by omega
          subst hc
          have hnot : ¬ prioD items (2 * j + 1 + 1) < prioD items (2 * j + 1) :=
            fun h2 => hg2 ⟨hcl, (defaultCompare_neg_iff _ _).mpr h2⟩
          exact not_lt.mp hnot
        obtain ⟨hA2, hB2⟩ := heapifyDown_swap_inv items j (2 * j + 1)
          hg1.1 (by omega) (by omega) hp1 hsib hA hB
        exact ih (listSwap items j (2 * j + 1)) (2 * j + 1)
          (by rw [listSwap_length]; omega) hA2 hB2
    · rw [if_neg hg1]
      by_cases hg2 : 2 * j + 1 + 1 < items.length ∧
          defaultCompare (prioD items (2 * j + 1 + 1)) (prioD items j) < 0
      · rw [if_pos hg2, if_neg (by omega : ¬ 2 * j + 1 + 1 = j)]
        have hp2 : prioD items (2 * j + 1 + 1) < prioD items j :=
          (defaultCompare_neg_iff _ _).mp hg2.2
        have hsib : ∀ c, 0 < c → c < items.length → (c - 1) / 2 = j →
            c ≠ 2 * j + 1 + 1 →
            prioD items (2 * j + 1 + 1) ≤ prioD items c := by
          intro c hc0 hcl hcp hcs
          have hc : c = 2 * j + 1 := by omega
          subst hc
          have hnot : ¬ prioD items (2 * j + 1) < prioD items j :=
            fun h2 => hg1 ⟨hcl, (defaultCompare_neg_iff _ _).mpr h2⟩
          exact le_trans (le_of_lt hp2) (not_lt.mp hnot)
        obtain ⟨hA2, hB2⟩ := heapifyDown_swap_inv items j (2 * j + 1 + 1)
          hg2.1 (by omega) (by omega) hp2 hsib hA hB
        exact ih (listSwap items j (2 * j + 1 + 1)) (2 * j + 1 + 1)
          (by rw [listSwap_length]; omega) hA2 hB2
      · rw [if_neg hg2, if_pos rfl]
        intro k hk0 hkl
        by_cases hpj : (k - 1) / 2 = j
        · have hk12 : k = 2 * j + 1 ∨ k = 2 * j + 1 + 1 := by omega
          rcases hk12 with hk | hk
          · subst hk
            have hnot : ¬ prioD items (2 * j + 1) < prioD items j :=
              fun h2 => hg1 ⟨hkl, (defaultCompare_neg_iff _ _).mpr h2⟩
            rw [hpj]
            exact not_lt.mp hnot
          · subst hk
            have hnot : ¬ prioD items (2 * j + 1 + 1) < prioD items j :=
              fun h2 => hg2 ⟨hkl, (defaultCompare_neg_iff _ _).mpr h2⟩
            rw [hpj]
            exact not_lt.mp hnot
        · exact hA k hk0 hkl hpj

theorem heapifyUpF_perm {T : Type} (compare : ℚ → ℚ → ℚ) :
    ∀ (fuel : ℕ) (items : List (T × ℚ)) (j : ℕ),
    heapifyUpF compare fuel items j ~ items := by
  intro fuel
  induction fuel with
  | zero => intro items j; exact List.Perm.refl _
  | succ fuel ih =>
    intro items j
    simp only [heapifyUpF]
    split
    · exact List.Perm.refl _
    · split
      · exact List.Perm.refl _
      · exact (ih _ _).trans (listSwap_perm _ _ _)

theorem heapifyDownF_perm {T : Type} (compare : ℚ → ℚ → ℚ) :
    ∀ (fuel : ℕ) (items : List (T × ℚ)) (j : ℕ),
    heapifyDownF compare fuel items j ~ items := by
  intro fuel
  induction fuel with
  | zero => intro items j; exact List.Perm.refl _
  | succ fuel ih =>
    intro items j
    simp only [heapifyDownF]
    split <;> split <;> split <;>
      first
        | exact List.Perm.refl _
        | exact (ih _ _).trans (listSwap_perm _ _ _)

theorem enqueue_items_perm {T : Type} (pq : PriorityQueue T) (x : T) (p : ℚ) :
    (pq.enqueue x p).items ~ pq.items ++ [(x, p)] := by
  show heapifyUp pq.compare (pq.items ++ [(x, p)])
    ((pq.items ++ [(x, p)]).length - 1) ~ pq.items ++ [(x, p)]
  exact heapifyUpF_perm _ _ _ _

theorem enqueue_isHeap {T : Type} (pq : PriorityQueue T)
    (hc : pq.compare = defaultCompare) (hh : IsHeap pq.items) (x : T) (p : ℚ) :
    IsHeap (pq.enqueue x p).items := by
  show IsHeap (heapifyUp pq.compare (pq.items ++ [(x, p)])
    ((pq.items ++ [(x, p)]).length - 1))
  rw [hc]
  unfold heapifyUp
  have hlen : (pq.items ++ [(x, p)]).length - 1 = pq.items.length := by simp
  rw [hlen]
  refine heapifyUpF_isHeap pq.items.length (pq.items ++ [(x, p)])
    pq.items.length le_rfl (by simp) ?_ ?_
  · intro k hk0 hkl hkj
    rw [List.length_append, List.length_singleton] at hkl
    have hkl2 : k < pq.items.length := by omega
    rw [prioD_append_left _ _ _ hkl2,
        prioD_append_left _ _ _ (by omega : (k - 1) / 2 < pq.items.length)]
    exact hh k hk0 hkl2
  · intro hj0 c hc0 hcl hcp
    rw [List.length_append, List.length_singleton] at hcl
    exact absurd hcp (by omega)

theorem enqueueAll_spec {T : Type} :
    ∀ (xs : List (T × ℚ)) (pq : PriorityQueue T),
    pq.compare = defaultCompare → IsHeap pq.items →
    (pq.enqueueAll xs).compare = defaultCompare ∧
    IsHeap (pq.enqueueAll xs).items ∧
    (pq.enqueueAll xs).items ~ pq.items ++ xs := by
  intro xs
  induction xs with
  | nil =>
    intro pq hc hh
    exact ⟨hc, hh, by simp [PriorityQueue.enqueueAll]⟩
  | cons x xs ih =>
    intro pq hc hh
    have hstep : pq.enqueueAll (x :: xs) = (pq.enqueue x.1 x.2).enqueueAll xs := rfl
    rw [hstep]
    have hc2 : (pq.enqueue x.1 x.2).compare = defaultCompare := hc
    have hh2 : IsHeap (pq.enqueue x.1 x.2).items := enqueue_isHeap pq hc hh x.1 x.2
    obtain ⟨h1, h2, h3⟩ := ih (pq.enqueue x.1 x.2) hc2 hh2
    refine ⟨h1, h2, ?_⟩
    calc (PriorityQueue.enqueueAll (pq.enqueue x.1 x.2) xs).items
        ~ (pq.enqueue x.1 x.2).items ++ xs := h3
      _ ~ (pq.items ++ [(x.1, x.2)]) ++ xs :=
          List.Perm.append_right xs (enqueue_items_perm pq x.1 x.2)
      _ = pq.items ++ x :: xs := by simp

theorem isHeap_root_min {T : Type} (items : List (T × ℚ)) (hh : IsHeap items) :
    ∀ k, k < items.length → prioD items 0 ≤ prioD items k := by
  have H : ∀ n k, k ≤ n → k < items.length → prioD items 0 ≤ prioD items k := by
    intro n
    induction n with
    | zero =>
      intro k hkn _
      have hk : k = 0 := by omega
      rw [hk]
    | succ n ih =>
      intro k hkn hkl
      rcases Nat.eq_zero_or_pos k with hk0 | hk0
      · rw [hk0]
      · exact le_trans (ih ((k - 1) / 2) (by omega) (by omega)) (hh k hk0 hkl)
  exact fun k hk => H k k le_rfl hk

theorem prioD_dropLast_set {T : Type} (l : List (T × ℚ)) (x : T × ℚ) (i : ℕ)
    (h0 : 0 < i) (hi : i < l.length - 1) :
    prioD (l.dropLast.set 0 x) i = prioD l i := by
  unfold prioD
  rw [List.getElem?_set, if_neg (by omega : ¬ (0 : ℕ) = i),
    List.dropLast_eq_take, List.getElem?_take, if_pos (by omega)]

theorem dequeue_snd_one {T : Type} (cmp : ℚ → ℚ → ℚ) (l : List (T × ℚ))
    (hlen : l.length = 1) :
    (PriorityQueue.dequeue ⟨l, cmp⟩).2 = ⟨[], cmp⟩ := by
  unfold PriorityQueue.dequeue
  dsimp only
  rw [if_neg (by omega), if_pos hlen]

theorem dequeue_snd_big {T : Type} (cmp : ℚ → ℚ → ℚ) (l : List (T × ℚ))
    (hlen : 2 ≤ l.length) (last : T × ℚ) (hlast : l.getLast? = some last) :
    (PriorityQueue.dequeue ⟨l, cmp⟩).2 =
      ⟨heapifyDown cmp (l.dropLast.set 0 last) 0, cmp⟩ := by
  unfold PriorityQueue.dequeue
  dsimp only
  rw [if_neg (by omega), if_neg (by omega), hlast]

theorem dequeue_spec {T : Type} (pq : PriorityQueue T)
    (hc : pq.compare = defaultCompare) (hh : IsHeap pq.items)
    (r : T × ℚ) (hr : pq.items[0]? = some r) :
    pq.dequeue.2.compare = defaultCompare ∧
    IsHeap pq.dequeue.2.items ∧
    r :: pq.dequeue.2.items ~ pq.items := by
  obtain ⟨l, cmp⟩ := pq
  dsimp only at hc hh hr ⊢
  subst hc
  cases l with
  | nil => exact absurd hr (by simp)
  | cons a rest =>
    simp only [List.getElem?_cons_zero, Option.some.injEq] at hr
    subst hr
    cases rest with
    | nil =>
      rw [dequeue_snd_one defaultCompare [a] (by simp)]
      refine ⟨rfl, ?_, ?_⟩
      · intro k hk0 hkl
        exact absurd hkl (by simp)
      · exact List.Perm.refl [a]
    | cons b rest =>
      have hne : (a :: b :: rest) ≠ ([] : List (T × ℚ)) := by simp
      have hlast : (a :: b :: rest).getLast? =
          some ((a :: b :: rest).getLast hne) :=
        List.getLast?_eq_getLast _ hne
      rw [dequeue_snd_big defaultCompare (a :: b :: rest) (by simp)
        ((a :: b :: rest).getLast hne) hlast]
      dsimp only
      refine ⟨rfl, ?_, ?_⟩
      · show IsHeap (heapifyDownF defaultCompare
          (((a :: b :: rest).dropLast.set 0 ((a :: b :: rest).getLast hne)).length)
          ((a :: b :: rest).dropLast.set 0 ((a :: b :: rest).getLast hne)) 0)
        refine heapifyDownF_isHeap _ _ 0 (by omega) ?_ ?_
        · intro k hk0 hkl hkp
          have hlen' :
              ((a :: b :: rest).dropLast.set 0
                ((a :: b :: rest).getLast hne)).length = rest.length + 1 := by
            simp
          rw [hlen'] at hkl
          rw [prioD_dropLast_set _ _ _ (by omega)
                (by simp only [List.length_cons]; omega),
              prioD_dropLast_set _ _ _ hk0
                (by simp only [List.length_cons]; omega)]
          exact hh k hk0 (by simp only [List.length_cons]; omega)
        · intro h0
          exact absurd h0 (by omega)
      · have h1 : heapifyDown defaultCompare
            ((a :: b :: rest).dropLast.set 0 ((a :: b :: rest).getLast hne)) 0
            ~ (a :: b :: rest).dropLast.set 0 ((a :: b :: rest).getLast hne) :=
          heapifyDownF_perm _ _ _ _
        have hbne : (b :: rest) ≠ ([] : List (T × ℚ)) := by simp
        have h2 : (a :: b :: rest).dropLast.set 0 ((a :: b :: rest).getLast hne)
            = (a :: b :: rest).getLast hne :: (b :: rest).dropLast := by
          rw [List.dropLast_cons₂]
          rfl
        have h4 : (b :: rest).dropLast ++ [(a :: b :: rest).getLast hne]
            = b :: rest := by
          rw [List.getLast_cons hbne]
          exact List.dropLast_append_getLast hbne
        have h3 : (a :: b :: rest).getLast hne :: (b :: rest).dropLast
            ~ b :: rest := by
          calc (a :: b :: rest).getLast hne :: (b :: rest).dropLast
              ~ (b :: rest).dropLast ++ [(a :: b :: rest).getLast hne] :=
                (List.perm_append_singleton _ _).symm
            _ = b :: rest := h4
        calc a :: heapifyDown defaultCompare
              ((a :: b :: rest).dropLast.set 0 ((a :: b :: rest).getLast hne)) 0
            ~ a :: ((a :: b :: rest).getLast hne :: (b :: rest).dropLast) :=
              List.Perm.cons a (h2 ▸ h1)
          _ ~ a :: b :: rest := List.Perm.cons a h3

theorem drainF_sorted_perm {T : Type} :
    ∀ (fuel : ℕ) (pq : PriorityQueue T),
    pq.compare = defaultCompare → IsHeap pq.items → pq.items.length ≤ fuel →
    drainF fuel pq ~ pq.items ∧
    List.Sorted (· ≤ ·) ((drainF fuel pq).map Prod.snd) := by
  intro fuel
  induction fuel with
  | zero =>
    intro pq hc hh hlen
    have hnil : pq.items = [] := List.length_eq_zero.mp (by omega)
    constructor
    · rw [hnil]
      exact List.Perm.nil
    · simp [drainF]
  | succ fuel ih =>
    intro pq hc hh hlen
    cases hr : pq.items[0]? with
    | none =>
      have hnil : pq.items = [] := by
        cases hitems : pq.items with
        | nil => rfl
        | cons a t =>
          rw [hitems] at hr
          exact absurd hr (by simp)
      constructor
      · simp only [drainF, hr]
        rw [hnil]
      · simp only [drainF, hr]
        simp
    | some r =>
      obtain ⟨hc2, hh2, hperm⟩ := dequeue_spec pq hc hh r hr
      have hlen2 : pq.dequeue.2.items.length + 1 = pq.items.length := by
        simpa using hperm.length_eq
      obtain ⟨ihp, ihs⟩ := ih pq.dequeue.2 hc2 hh2 (by omega)
      constructor
      · simp only [drainF, hr]
        exact (List.Perm.cons r ihp).trans hperm
      · simp only [drainF, hr, List.map_cons]
        rw [List.sorted_cons]
        refine ⟨?_, ihs⟩
        intro q hq
        obtain ⟨p, hpmem, hpb⟩ := List.mem_map.mp hq
        have hp1 : p ∈ pq.dequeue.2.items := ihp.mem_iff.mp hpmem
        have hp2 : p ∈ pq.items := hperm.mem_iff.mp (List.mem_cons_of_mem r hp1)
        obtain ⟨k, hk, hkp⟩ := List.mem_iff_getElem.mp hp2
        have hroot : prioD pq.items 0 = r.2 := by
          unfold prioD
          rw [hr]
          rfl
        have hpk : prioD pq.items k = p.2 := by
          unfold prioD
          rw [List.getElem?_eq_getElem hk, hkp]
          rfl
        have hmin := isHeap_root_min pq.items hh k hk
        rw [hroot, hpk] at hmin
        rw [← hpb]
        exact hmin

/-- C1: for every finite sequence of `(item, priority)` pairs enqueued in any
order into a `PriorityQueue` built with the default comparator
`(a, b) => a - b`, dequeuing until the queue is empty emits every enqueued
record exactly once, with the priorities in non-decreasing numeric order; in
particular, after enqueuing `(A,5), (B,1), (C,3)` the dequeue order is
`B, C, A`. -/
theorem pq_default_drain_sorted :
    (∀ (T : Type) (xs : List (T × ℚ)),
      List.Sorted (· ≤ ·)
        (((PriorityQueue.mk0 T).enqueueAll xs).drain.map Prod.snd) ∧
      ((PriorityQueue.mk0 T).enqueueAll xs).drain ~ xs) ∧
    ((PriorityQueue.mk0 String).enqueueAll
        [("A", 5), ("B", 1), ("C", 3)]).drain.map Prod.fst = ["B", "C", "A"] := by
  constructor
  · intro T xs
    have hmk : IsHeap (PriorityQueue.mk0 T).items := by
      intro k hk0 hkl
      exact absurd hkl (by simp [PriorityQueue.mk0])
    obtain ⟨hc, hh, hperm⟩ := enqueueAll_spec xs (PriorityQueue.mk0 T) rfl hmk
    obtain ⟨hdp, hds⟩ := drainF_sorted_perm
      ((PriorityQueue.mk0 T).enqueueAll xs).items.length
      ((PriorityQueue.mk0 T).enqueueAll xs) hc hh le_rfl
    refine ⟨hds, ?_⟩
    refine hdp.trans (hperm.trans ?_)
    simp [PriorityQueue.mk0]
  · norm_num [PriorityQueue.drain, PriorityQueue.enqueueAll, PriorityQueue.enqueue,
      PriorityQueue.dequeue, PriorityQueue.mk0, drainF, heapifyUp, heapifyUpF,
      heapifyDown, heapifyDownF, listSwap, prioD, defaultCompare]
